import Mathlib

/-!
Verification of the csvquery core engine (Go sources) against its
natural-language specification.

The Go sources are shallowly embedded: bytes are `Nat` (values 0..255),
byte strings are `List Nat`, Go `int64` is `Int` with explicit two's
complement conversion where the code casts, and stateful loops become
structural recursions carrying the loop state.  Each definition cites the
source function it embeds.
-/

set_option linter.unusedVariables false

namespace CsvQuery

/-! ### Byte-string comparison

`bytesCmp` embeds Go `bytes.Compare` (lexicographic, shorter prefix is
smaller).  Go string comparison (`<=`, `>` on `string`) is the same
byte-wise order.
-/

def bytesCmp : List Nat → List Nat → Ordering
  | [], [] => .eq
  | [], _ :: _ => .lt
  | _ :: _, [] => .gt
  | a :: as, b :: bs =>
    if a < b then .lt else if b < a then .gt else bytesCmp as bs

theorem bytesCmp_cons_lt {a b : Nat} (as bs : List Nat) (h : a < b) :
    bytesCmp (a :: as) (b :: bs) = .lt := by
  simp [bytesCmp, h]

theorem bytesCmp_cons_gt {a b : Nat} (as bs : List Nat) (h : b < a) :
    bytesCmp (a :: as) (b :: bs) = .gt := by
  simp [bytesCmp, h, Nat.lt_asymm h]

theorem bytesCmp_cons_same (a : Nat) (as bs : List Nat) :
    bytesCmp (a :: as) (a :: bs) = bytesCmp as bs := by
  simp [bytesCmp, Nat.lt_irrefl]

theorem bytesCmp_self : ∀ a, bytesCmp a a = .eq
  | [] => rfl
  | x :: xs => by rw [bytesCmp_cons_same, bytesCmp_self xs]

theorem bytesCmp_eq : ∀ {a b}, bytesCmp a b = .eq → a = b
  | [], [], _ => rfl
  | [], _ :: _, h => by simp [bytesCmp] at h
  | _ :: _, [], h => by simp [bytesCmp] at h
  | a :: as, b :: bs, h => by
    rcases Nat.lt_trichotomy a b with hl | he | hg
    · rw [bytesCmp_cons_lt as bs hl] at h; exact absurd h (by simp)
    · subst he
      rw [bytesCmp_cons_same] at h
      rw [bytesCmp_eq h]
    · rw [bytesCmp_cons_gt as bs hg] at h; exact absurd h (by simp)

theorem bytesCmp_nil_ne_gt : ∀ b, bytesCmp [] b ≠ .gt
  | [] => by simp [bytesCmp]
  | _ :: _ => by simp [bytesCmp]

theorem bytesCmp_swap : ∀ a b, bytesCmp b a = (bytesCmp a b).swap
  | [], [] => rfl
  | [], _ :: _ => rfl
  | _ :: _, [] => rfl
  | a :: as, b :: bs => by
    rcases Nat.lt_trichotomy a b with hl | he | hg
    · rw [bytesCmp_cons_lt as bs hl, bytesCmp_cons_gt bs as hl]; rfl
    · subst he
      rw [bytesCmp_cons_same, bytesCmp_cons_same, bytesCmp_swap as bs]
    · rw [bytesCmp_cons_gt as bs hg, bytesCmp_cons_lt bs as hg]; rfl

theorem bytesCmp_lt_trans :
    ∀ {a b c}, bytesCmp a b = .lt → bytesCmp b c = .lt → bytesCmp a c = .lt
  | [], [], c, h1, _ => by simp [bytesCmp] at h1
  | [], _ :: _, [], _, h2 => by simp [bytesCmp] at h2
  | [], _ :: _, _ :: _, _, _ => by simp [bytesCmp]
  | _ :: _, [], _, h1, _ => by simp [bytesCmp] at h1
  | _ :: _, _ :: _, [], _, h2 => by simp [bytesCmp] at h2
  | a :: as, b :: bs, c :: cs, h1, h2 => by
    rcases Nat.lt_trichotomy a b with hab | hab | hab
    · rcases Nat.lt_trichotomy b c with hbc | hbc | hbc
      · exact bytesCmp_cons_lt as cs (by omega)
      · subst hbc; exact bytesCmp_cons_lt as cs hab
      · rw [bytesCmp_cons_gt bs cs hbc] at h2; exact absurd h2 (by simp)
    · subst hab
      rw [bytesCmp_cons_same] at h1
      rcases Nat.lt_trichotomy a c with hbc | hbc | hbc
      · exact bytesCmp_cons_lt as cs hbc
      · subst hbc
        rw [bytesCmp_cons_same] at h2 ⊢
        exact bytesCmp_lt_trans h1 h2
      · rw [bytesCmp_cons_gt bs cs hbc] at h2; exact absurd h2 (by simp)
    · rw [bytesCmp_cons_gt as bs hab] at h1; exact absurd h1 (by simp)

/-- `keyLE a b` means `a ≤ b` in the byte-wise order (Go `a <= b` on strings). -/
def keyLE (a b : List Nat) : Prop := bytesCmp a b ≠ .gt

instance : DecidableRel keyLE := fun a b => by
  unfold keyLE; infer_instance

theorem keyLE_total (a b : List Nat) : keyLE a b ∨ keyLE b a := by
  unfold keyLE
  by_cases h : bytesCmp a b = .gt
  · right
    rw [bytesCmp_swap, h]
    simp [Ordering.swap]
  · left; exact h

theorem keyLE_trans {a b c : List Nat} (h1 : keyLE a b) (h2 : keyLE b c) : keyLE a c := by
  unfold keyLE at *
  rcases hab : bytesCmp a b with _ | _ | _
  · rcases hbc : bytesCmp b c with _ | _ | _
    · rw [bytesCmp_lt_trans hab hbc]; simp
    · rw [bytesCmp_eq hbc] at hab; rw [hab]; simp
    · exact absurd hbc h2
  · rw [bytesCmp_eq hab]
    exact h2
  · exact absurd hab h1

instance : IsTotal (List Nat) keyLE := ⟨keyLE_total⟩

instance : IsTrans (List Nat) keyLE := ⟨fun _ _ _ => keyLE_trans⟩

/-! ### Trailing-zero trimming

Embeds `bytes.TrimRight(key[:], "\x00")` used for directory start keys,
bloom insertion and `compareRecordKey`.
-/

def trimZeros : List Nat → List Nat
  | [] => []
  | a :: as =>
    if trimZeros as = [] then (if a = 0 then [] else [a]) else a :: trimZeros as

theorem bytesCmp_cons_nil (x : Nat) (xs : List Nat) : bytesCmp (x :: xs) [] = .gt := rfl

/-- Trimming trailing zero bytes is monotone for the byte-wise order:
the sparse directory inherits its `start_key` order from the record order. -/
theorem trimZeros_mono : ∀ {a b}, keyLE a b → keyLE (trimZeros a) (trimZeros b)
  | [], b, _ => by
    unfold keyLE
    exact bytesCmp_nil_ne_gt _
  | _ :: _, [], h => by
    exact absurd rfl h
  | a :: as, b :: bs, h => by
    unfold keyLE at h ⊢
    rcases Nat.lt_trichotomy a b with hab | hab | hab
    · -- a < b : trimZeros (b :: bs) is nonempty with head b, b ≠ 0
      have hbne : ¬b = 0 := by omega
      show bytesCmp (trimZeros (a :: as)) (trimZeros (b :: bs)) ≠ .gt
      simp only [trimZeros]
      split_ifs <;>
        first
          | (exfalso; omega)
          | (exact bytesCmp_nil_ne_gt _)
          | (rw [bytesCmp_cons_lt _ _ hab]; simp)
    · -- a = b
      subst hab
      rw [bytesCmp_cons_same] at h
      have ih : bytesCmp (trimZeros as) (trimZeros bs) ≠ .gt := trimZeros_mono h
      show bytesCmp (trimZeros (a :: as)) (trimZeros (a :: bs)) ≠ .gt
      simp only [trimZeros]
      split_ifs with t1 t2 t3 t4 t5 t6
      · simp [bytesCmp]
      · exact bytesCmp_nil_ne_gt _
      · rw [bytesCmp_self]; simp
      · rw [bytesCmp_cons_same]
        exact bytesCmp_nil_ne_gt _
      · -- trimZeros as ≠ [] but trimZeros bs = [] : contradicts ih
        exfalso
        obtain ⟨x, xs, hx⟩ := List.exists_cons_of_ne_nil t1
        rw [t5, hx] at ih
        exact ih rfl
      · exfalso
        obtain ⟨x, xs, hx⟩ := List.exists_cons_of_ne_nil t1
        rw [t5, hx] at ih
        exact ih rfl
      · rw [bytesCmp_cons_same]
        exact ih
    · -- b < a contradicts the hypothesis
      rw [bytesCmp_cons_gt as bs hab] at h
      exact absurd rfl h

/-! ### Index records

Embeds `types.IndexRecord`: a 64-byte zero-padded key plus big-endian
signed 64-bit `offset` and `line` (`pkg/csvquery/types`).
-/

structure IndexRecord where
  key : List Nat
  offset : Int
  line : Int
deriving DecidableEq

/-- Record comparator used by `Sorter.flushChunk` (`slices.SortFunc`) and
by `mergeItem.Less` in the k-way merge: full 64-byte `bytes.Compare` of the
keys, ties broken by `offset` (block_io.go lines 640-652 and 778-784). -/
def recCmp (a b : IndexRecord) : Ordering :=
  if bytesCmp a.key b.key ≠ .eq then bytesCmp a.key b.key
  else if a.offset < b.offset then .lt
  else if b.offset < a.offset then .gt
  else .eq

def recLE (a b : IndexRecord) : Prop := recCmp a b ≠ .gt

instance : DecidableRel recLE := fun a b => by
  unfold recLE; infer_instance

theorem recCmp_eq {a b : IndexRecord} (h : recCmp a b = .eq) :
    a.key = b.key ∧ a.offset = b.offset := by
  unfold recCmp at h
  by_cases h1 : bytesCmp a.key b.key ≠ .eq
  · rw [if_pos h1] at h
    exact absurd h h1
  · push_neg at h1
    rw [if_neg (by simp [h1])] at h
    refine ⟨bytesCmp_eq h1, ?_⟩
    by_cases h2 : a.offset < b.offset
    · rw [if_pos h2] at h
      exact absurd h (by simp)
    · rw [if_neg h2] at h
      by_cases h3 : b.offset < a.offset
      · rw [if_pos h3] at h
        exact absurd h (by simp)
      · omega

theorem recCmp_gt_lt {a b : IndexRecord} (h : recCmp a b = .gt) : recCmp b a = .lt := by
  have hs := bytesCmp_swap a.key b.key
  unfold recCmp at h ⊢
  by_cases h1 : bytesCmp a.key b.key ≠ .eq
  · rw [if_pos h1] at h
    have h1' : bytesCmp b.key a.key = .lt := by rw [hs, h]; rfl
    rw [if_pos (by rw [h1']; simp), h1']
  · push_neg at h1
    rw [if_neg (by simp [h1])] at h
    have h1' : bytesCmp b.key a.key = .eq := by rw [hs, h1]; rfl
    rw [if_neg (by rw [h1']; simp)]
    by_cases h2 : a.offset < b.offset
    · rw [if_pos h2] at h
      exact absurd h (by simp)
    · rw [if_neg h2] at h
      by_cases h3 : b.offset < a.offset
      · rw [if_pos h3]
      · rw [if_neg h3] at h
        exact absurd h (by simp)

theorem offCmp_lt {x y : Int}
    (h : (if x < y then Ordering.lt else if y < x then Ordering.gt else Ordering.eq) = .lt) :
    x < y := by
  by_contra hno
  rw [if_neg hno] at h
  by_cases h2 : y < x
  · rw [if_pos h2] at h
    exact absurd h (by simp)
  · rw [if_neg h2] at h
    exact absurd h (by simp)

theorem recCmp_lt_trans {a b c : IndexRecord}
    (h1 : recCmp a b = .lt) (h2 : recCmp b c = .lt) : recCmp a c = .lt := by
  unfold recCmp at *
  by_cases k1 : bytesCmp a.key b.key ≠ .eq <;> by_cases k2 : bytesCmp b.key c.key ≠ .eq
  · -- both key comparisons strict
    rw [if_pos k1] at h1
    rw [if_pos k2] at h2
    have hk : bytesCmp a.key c.key = .lt := bytesCmp_lt_trans h1 h2
    rw [if_pos (by rw [hk]; simp), hk]
  · -- a < b on keys, b = c on keys
    rw [if_pos k1] at h1
    push_neg at k2
    have hk : bytesCmp a.key c.key = .lt := by
      rw [← bytesCmp_eq k2]; exact h1
    rw [if_pos (by rw [hk]; simp), hk]
  · -- a = b on keys, b < c on keys
    push_neg at k1
    rw [if_pos k2] at h2
    have hk : bytesCmp a.key c.key = .lt := by
      rw [bytesCmp_eq k1]; exact h2
    rw [if_pos (by rw [hk]; simp), hk]
  · -- keys all equal, offsets strictly increase
    push_neg at k1 k2
    rw [if_neg (by simp [k1])] at h1
    rw [if_neg (by simp [k2])] at h2
    have o1 := offCmp_lt h1
    have o2 := offCmp_lt h2
    have hk : bytesCmp a.key c.key = .eq := by
      rw [bytesCmp_eq k1, bytesCmp_eq k2, bytesCmp_self]
    rw [if_neg (by simp [hk]), if_pos (by omega)]

theorem recLE_total (a b : IndexRecord) : recLE a b ∨ recLE b a := by
  unfold recLE
  by_cases h : recCmp a b = .gt
  · right
    rw [recCmp_gt_lt h]
    simp
  · left; exact h

theorem recLE_trans {a b c : IndexRecord} (h1 : recLE a b) (h2 : recLE b c) : recLE a c := by
  unfold recLE at *
  rcases hab : recCmp a b with _ | _ | _
  · rcases hbc : recCmp b c with _ | _ | _
    · rw [recCmp_lt_trans hab hbc]; simp
    · obtain ⟨hk, ho⟩ := recCmp_eq hbc
      have heq : recCmp a c = recCmp a b := by
        unfold recCmp
        rw [hk, ho]
      rw [heq, hab]
      simp
    · exact absurd hbc h2
  · obtain ⟨hk, ho⟩ := recCmp_eq hab
    have heq : recCmp a c = recCmp b c := by
      unfold recCmp
      rw [hk, ho]
    rw [heq]
    exact h2
  · exact absurd hab h1

instance : IsTotal IndexRecord recLE := ⟨recLE_total⟩

instance : IsTrans IndexRecord recLE := ⟨fun _ _ _ => recLE_trans⟩

theorem recLE_refl (a : IndexRecord) : recLE a a := by
  unfold recLE recCmp
  rw [bytesCmp_self]
  simp [Int.lt_irrefl]

theorem recLE_keyLE {a b : IndexRecord} (h : recLE a b) : keyLE a.key b.key := by
  unfold recLE recCmp at h
  unfold keyLE
  by_cases h1 : bytesCmp a.key b.key ≠ .eq
  · rw [if_pos h1] at h
    exact h
  · push_neg at h1
    rw [h1]
    simp


/-! ### Record codec

Embeds `storage.ReadRecord` / `storage.WriteBatchRecords`
(`go/internal/storage`, record codec): an 80-byte layout of
64 key bytes, then `offset` and `line` as big-endian unsigned 8-byte
words holding the two's complement bit pattern of the Go `int64`.
-/

/-- `copy(keyBytes[:], key)` into a `[64]byte`: truncate to 64 bytes and
zero-pad on the right (indexer.go record construction). -/
def toKey64 (l : List Nat) : List Nat :=
  l.take 64 ++ List.replicate (64 - l.length) 0

/-- `binary.BigEndian.PutUint64`. -/
def natToBE8 (n : Nat) : List Nat :=
  [n / 2 ^ 56 % 256, n / 2 ^ 48 % 256, n / 2 ^ 40 % 256, n / 2 ^ 32 % 256,
   n / 2 ^ 24 % 256, n / 2 ^ 16 % 256, n / 2 ^ 8 % 256, n % 256]

/-- `binary.BigEndian.Uint64`. -/
def beToNat8 (l : List Nat) : Nat :=
  l.foldl (fun acc b => acc * 256 + b) 0

/-- `uint64(x)` for a Go `int64` value: the two's complement bit pattern. -/
def int64ToBE (x : Int) : List Nat :=
  natToBE8 (x % 2 ^ 64).toNat

/-- `int64(u)` for a `uint64` read back from the wire. -/
def beToInt64 (l : List Nat) : Int :=
  if beToNat8 l < 2 ^ 63 then (beToNat8 l : Int) else (beToNat8 l : Int) - 2 ^ 64

theorem natToBE8_length (n : Nat) : (natToBE8 n).length = 8 := rfl

theorem beToNat8_natToBE8 {n : Nat} (h : n < 2 ^ 64) : beToNat8 (natToBE8 n) = n := by
  simp only [natToBE8, beToNat8, List.foldl]
  omega

theorem beToInt64_int64ToBE {x : Int} (h1 : -(2 ^ 63) ≤ x) (h2 : x < 2 ^ 63) :
    beToInt64 (int64ToBE x) = x := by
  unfold beToInt64 int64ToBE
  have hm : 0 ≤ x % 2 ^ 64 := Int.emod_nonneg x (by norm_num)
  have hm2 : x % 2 ^ 64 < 2 ^ 64 := Int.emod_lt_of_pos x (by norm_num)
  rw [beToNat8_natToBE8 (by omega)]
  rw [Int.toNat_of_nonneg hm]
  have := Int.emod_emod_of_dvd x (dvd_refl (2 ^ 64))
  omega

/-- `WriteRecord`: 64 key bytes, 8 offset bytes, 8 line bytes. -/
def encodeRecord (r : IndexRecord) : List Nat :=
  r.key ++ int64ToBE r.offset ++ int64ToBE r.line

/-- `WriteBatchRecords`: records serialized back-to-back. -/
def encodeBatch (recs : List IndexRecord) : List Nat :=
  (recs.map encodeRecord).flatten

/-- One 80-byte slice decoded by `ReadRecord`. -/
def decodeRecord (bs : List Nat) : IndexRecord :=
  { key := bs.take 64
    offset := beToInt64 ((bs.drop 64).take 8)
    line := beToInt64 ((bs.drop 72).take 8) }

/-- The `BlockReader.ReadBlock` loop: `ReadRecord` until clean EOF;
a trailing partial record is an error (`io.ReadFull` short read). -/
def decodeRecords (bs : List Nat) : Option (List IndexRecord) :=
  if bs = [] then some []
  else if 80 <= bs.length then
    match decodeRecords (bs.drop 80) with
    | some rest => some (decodeRecord (bs.take 80) :: rest)
    | none => none
  else none
termination_by bs.length
decreasing_by
  simp only [List.length_drop]
  rename_i hne _
  have : bs.length ≠ 0 := fun hz => hne (List.eq_nil_of_length_eq_zero hz)
  omega

theorem encodeRecord_length {r : IndexRecord} (hk : r.key.length = 64) :
    (encodeRecord r).length = 80 := by
  simp [encodeRecord, int64ToBE, natToBE8, hk]

theorem decodeRecord_encodeRecord {r : IndexRecord} (hk : r.key.length = 64)
    (ho1 : -(2 ^ 63) ≤ r.offset) (ho2 : r.offset < 2 ^ 63)
    (hl1 : -(2 ^ 63) ≤ r.line) (hl2 : r.line < 2 ^ 63) :
    decodeRecord (encodeRecord r) = r := by
  have hlo : (int64ToBE r.offset).length = 8 := natToBE8_length _
  have hll : (int64ToBE r.line).length = 8 := natToBE8_length _
  have hb : encodeRecord r = r.key ++ (int64ToBE r.offset ++ int64ToBE r.line) := by
    unfold encodeRecord
    rw [List.append_assoc]
  have e1 : (encodeRecord r).take 64 = r.key := by
    rw [hb, List.take_append_of_le_length (by omega), List.take_of_length_le (by omega)]
  have e2 : (encodeRecord r).drop 64 = int64ToBE r.offset ++ int64ToBE r.line := by
    rw [hb, List.drop_append_of_le_length (by omega), List.drop_of_length_le (by omega),
      List.nil_append]
  have e3 : (encodeRecord r).drop 72 = int64ToBE r.line := by
    rw [show (72 : Nat) = 64 + 8 from rfl, ← List.drop_drop, e2,
      List.drop_append_of_le_length (by omega), List.drop_of_length_le (by omega),
      List.nil_append]
  have e4 : ((encodeRecord r).drop 64).take 8 = int64ToBE r.offset := by
    rw [e2, List.take_append_of_le_length (by omega), List.take_of_length_le (by omega)]
  have e5 : ((encodeRecord r).drop 72).take 8 = int64ToBE r.line := by
    rw [e3, List.take_of_length_le (by omega)]
  unfold decodeRecord
  rw [e1, e4, e5, beToInt64_int64ToBE ho1 ho2, beToInt64_int64ToBE hl1 hl2]

theorem decodeRecords_encodeBatch {recs : List IndexRecord}
    (hkey : ∀ r ∈ recs, r.key.length = 64)
    (hoff : ∀ r ∈ recs, -(2 ^ 63) ≤ r.offset ∧ r.offset < 2 ^ 63)
    (hline : ∀ r ∈ recs, -(2 ^ 63) ≤ r.line ∧ r.line < 2 ^ 63) :
    decodeRecords (encodeBatch recs) = some recs := by
  induction recs with
  | nil =>
    rw [decodeRecords]
    simp [encodeBatch]
  | cons r rs ih =>
    have hk : r.key.length = 64 := hkey r (by simp)
    have hlen : (encodeRecord r).length = 80 := encodeRecord_length hk
    have hbatch : encodeBatch (r :: rs) = encodeRecord r ++ encodeBatch rs := by
      simp [encodeBatch]
    rw [decodeRecords, hbatch]
    have hne : ¬(encodeRecord r ++ encodeBatch rs = []) := by
      intro hz
      have := congrArg List.length hz
      simp [hlen] at this
    rw [if_neg hne, if_pos (show 80 ≤ _ from by rw [List.length_append, hlen]; omega)]
    rw [List.drop_append_of_le_length (by omega), List.drop_of_length_le (by omega)]
    simp only [List.nil_append]
    rw [ih (fun x hx => hkey x (by simp [hx])) (fun x hx => hoff x (by simp [hx]))
      (fun x hx => hline x (by simp [hx]))]
    rw [List.take_append_of_le_length (by omega), List.take_of_length_le (by omega)]
    rw [decodeRecord_encodeRecord hk (hoff r (by simp)).1 (hoff r (by simp)).2
      (hline r (by simp)).1 (hline r (by simp)).2]

/-- `BlockWriter.FlushBlock` at byte level: batch-encode then compress.
LZ4 is an external library; it enters only as an abstract lossless
compression pair. -/
def flushBlockBytes (comp : List Nat → List Nat) (recs : List IndexRecord) : List Nat :=
  comp (encodeBatch recs)

/-- `BlockReader.ReadBlock` at byte level: decompress then decode records. -/
def readBlockRecords (decomp : List Nat → List Nat) (bs : List Nat) :
    Option (List IndexRecord) :=
  decodeRecords (decomp bs)

/-- C3: for every batch of index records flushed as one block by the block
writer into a `.cidx`, reading that block back through the block reader
(LZ4-decompress — modelled as an abstract lossless codec, the library being
external to this repository — then decode with the 80-byte record codec)
returns the same records: same count, byte-identical 64-byte keys, identical
offset and line integer values, in the same order. -/
theorem c3_block_roundtrip (comp decomp : List Nat → List Nat)
    (hcd : ∀ bs, decomp (comp bs) = bs) (recs : List IndexRecord)
    (hkey : ∀ r ∈ recs, r.key.length = 64)
    (hoff : ∀ r ∈ recs, -(2 ^ 63) ≤ r.offset ∧ r.offset < 2 ^ 63)
    (hline : ∀ r ∈ recs, -(2 ^ 63) ≤ r.line ∧ r.line < 2 ^ 63) :
    readBlockRecords decomp (flushBlockBytes comp recs) = some recs := by
  unfold readBlockRecords flushBlockBytes
  rw [hcd]
  exact decodeRecords_encodeBatch hkey hoff hline

def c3rec : IndexRecord := { key := toKey64 [65], offset := 5, line := -3 }

/-- Witness for C3 at a concrete record (with a negative `line` to exercise
the two's complement big-endian round trip). -/
theorem c3_block_roundtrip_witness :
    (∀ bs : List Nat, id (id bs) = bs)
    ∧ (∀ r ∈ [c3rec], r.key.length = 64)
    ∧ (∀ r ∈ [c3rec], -(2 ^ 63) ≤ r.offset ∧ r.offset < 2 ^ 63)
    ∧ (∀ r ∈ [c3rec], -(2 ^ 63) ≤ r.line ∧ r.line < 2 ^ 63)
    ∧ readBlockRecords id (flushBlockBytes id [c3rec]) = some [c3rec] :=
  ⟨fun _ => rfl, by decide, by decide, by decide,
    c3_block_roundtrip id id (fun _ => rfl) [c3rec] (by decide) (by decide) (by decide)⟩

/-! ### Bloom filter

Embeds `BloomFilter` from `go/internal/index/indexer.go`: a byte array of
`size/8` bytes, `hashCount` hashes `(h1 + i*h2) mod size` with
`h1 = crc32(key)` and `h2 = crc32(reverse(key) ++ "salt")`.  `crc32` is a
Go standard-library function external to this repository; it enters the
model as an abstract function `crc`.  The Go hash arithmetic runs in
non-negative `int` range (`crc32` values are below `2^32` and
`hashCount ≤ 10`), so the `combined < 0` branch is never taken and plain
`Nat` arithmetic is faithful.
-/

structure BloomFilter where
  bits : List Nat
  size : Nat
  hashCount : Nat
  count : Nat
deriving DecidableEq

def saltBytes : List Nat := [115, 97, 108, 116]

/-- `bf.bits[byteIdx] |= (1 << bitIdx)`. -/
def setBit (bits : List Nat) (pos : Nat) : List Nat :=
  bits.set (pos / 8) (bits.getD (pos / 8) 0 ||| (1 <<< (pos % 8)))

/-- `(bf.bits[byteIdx] & (1 << bitIdx)) != 0`. -/
def testBit (bits : List Nat) (pos : Nat) : Bool :=
  bits.getD (pos / 8) 0 &&& (1 <<< (pos % 8)) != 0

/-- The bit positions probed for a key, common to `Add` and `MightContain`. -/
def bloomPositions (crc : List Nat → Nat) (size hashCount : Nat) (key : List Nat) :
    List Nat :=
  (List.range hashCount).map
    (fun i => (crc key + i * crc (key.reverse ++ saltBytes)) % size)

/-- `BloomFilter.Add`. -/
def bloomAdd (crc : List Nat → Nat) (bf : BloomFilter) (key : List Nat) : BloomFilter :=
  { bf with
    bits := (bloomPositions crc bf.size bf.hashCount key).foldl setBit bf.bits
    count := bf.count + 1 }

/-- `BloomFilter.MightContain`. -/
def mightContain (crc : List Nat → Nat) (bf : BloomFilter) (key : List Nat) : Bool :=
  (bloomPositions crc bf.size bf.hashCount key).all (fun p => testBit bf.bits p)

def bloomAddAll (crc : List Nat → Nat) (bf : BloomFilter) (keys : List (List Nat)) :
    BloomFilter :=
  keys.foldl (bloomAdd crc) bf

/-- `NewBloomFilter` after its size computation: `m` bits (at least 1024,
rounded up to a multiple of 8 — the float arithmetic deriving `m` and `k`
from `(n, p)` is abstracted into the parameters) and `k` hashes. -/
def newBloomFilter (m k : Nat) : BloomFilter :=
  { bits := List.replicate (m / 8) 0, size := m, hashCount := k, count := 0 }

/-- `BloomFilter.Serialize`: 24-byte big-endian header then the raw bits. -/
def serializeBloom (bf : BloomFilter) : List Nat :=
  natToBE8 bf.size ++ natToBE8 bf.hashCount ++ natToBE8 bf.count ++ bf.bits

/-- `DeserializeBloom` (also the mmap-backed `LoadBloomFilterMmap` path,
which reads the same bytes through the mapping). -/
def deserializeBloom (data : List Nat) : Option BloomFilter :=
  if data.length < 24 then none
  else some
    { bits := data.drop 24
      size := beToNat8 (data.take 8)
      hashCount := beToNat8 ((data.drop 8).take 8)
      count := beToNat8 ((data.drop 16).take 8) }

theorem getD_set_same : ∀ (l : List Nat) (i v : Nat), i < l.length →
    (l.set i v).getD i 0 = v
  | [], i, v, h => by simp at h
  | x :: xs, 0, v, _ => rfl
  | x :: xs, i + 1, v, h => by
    simp only [List.set, List.getD_cons_succ]
    exact getD_set_same xs i v (by simpa using h)

theorem getD_set_other : ∀ (l : List Nat) (i j v : Nat), i ≠ j →
    (l.set i v).getD j 0 = l.getD j 0
  | [], _, _, _, _ => by simp
  | x :: xs, 0, 0, v, h => absurd rfl h
  | x :: xs, 0, j + 1, v, h => by simp [List.getD_cons_succ]
  | x :: xs, i + 1, 0, v, h => by simp [List.getD_cons_zero]
  | x :: xs, i + 1, j + 1, v, h => by
    simp only [List.set, List.getD_cons_succ]
    exact getD_set_other xs i j v (by omega)

theorem one_shiftLeft_eq (j : Nat) : 1 <<< j = 2 ^ j := by
  rw [Nat.shiftLeft_eq, one_mul]

theorem and_two_pow_ne_zero (x j : Nat) : (¬(x &&& 2 ^ j = 0)) ↔ x.testBit j = true := by
  rw [Nat.and_two_pow]
  rcases hx : x.testBit j <;> simp [hx, Nat.pow_eq_zero]

theorem testBit_setBit_self {bits : List Nat} {pos : Nat} (h : pos / 8 < bits.length) :
    testBit (setBit bits pos) pos = true := by
  unfold testBit setBit
  rw [getD_set_same _ _ _ h]
  simp only [bne_iff_ne, ne_eq, one_shiftLeft_eq]
  rw [and_two_pow_ne_zero, Nat.testBit_lor, Nat.testBit_two_pow_self]
  simp

theorem testBit_setBit_mono {bits : List Nat} {p q : Nat} (h : testBit bits p = true) :
    testBit (setBit bits q) p = true := by
  unfold testBit setBit at *
  simp only [bne_iff_ne, ne_eq, one_shiftLeft_eq] at h ⊢
  rw [and_two_pow_ne_zero] at h ⊢
  by_cases hb : q / 8 = p / 8
  · by_cases hl : p / 8 < bits.length
    · rw [hb, getD_set_same _ _ _ hl, Nat.testBit_lor, h]
      simp
    · rw [List.set_eq_of_length_le (by omega)]
      exact h
  · rw [getD_set_other _ _ _ _ hb]
    exact h

theorem foldl_setBit_length (ps : List Nat) : ∀ bits : List Nat,
    (ps.foldl setBit bits).length = bits.length := by
  induction ps with
  | nil => intro bits; rfl
  | cons p ps ih =>
    intro bits
    rw [List.foldl_cons, ih]
    simp [setBit]

theorem testBit_foldl_mono {ps : List Nat} : ∀ {bits : List Nat} {p : Nat},
    testBit bits p = true → testBit (ps.foldl setBit bits) p = true := by
  induction ps with
  | nil => exact fun h => h
  | cons q ps ih =>
    intro bits p h
    rw [List.foldl_cons]
    exact ih (testBit_setBit_mono h)

theorem testBit_foldl_self {ps : List Nat} : ∀ {bits : List Nat} {p : Nat},
    p ∈ ps → (∀ q ∈ ps, q / 8 < bits.length) →
    testBit (ps.foldl setBit bits) p = true := by
  induction ps with
  | nil => intro _ _ hp _; simp at hp
  | cons q ps ih =>
    intro bits p hp hlen
    rw [List.foldl_cons]
    rcases List.mem_cons.mp hp with rfl | hp
    · exact testBit_foldl_mono (testBit_setBit_self (hlen p (by simp)))
    · refine ih hp (fun r hr => ?_)
      have : (setBit bits q).length = bits.length := by simp [setBit]
      rw [this]
      exact hlen r (by simp [hr])

theorem bloomAdd_fields (crc : List Nat → Nat) (bf : BloomFilter) (key : List Nat) :
    (bloomAdd crc bf key).size = bf.size
    ∧ (bloomAdd crc bf key).hashCount = bf.hashCount
    ∧ (bloomAdd crc bf key).bits.length = bf.bits.length
    ∧ (bloomAdd crc bf key).count = bf.count + 1 := by
  refine ⟨rfl, rfl, ?_, rfl⟩
  simp [bloomAdd, foldl_setBit_length]

theorem bloomAddAll_fields (crc : List Nat → Nat) (keys : List (List Nat)) :
    ∀ bf : BloomFilter,
    (bloomAddAll crc bf keys).size = bf.size
    ∧ (bloomAddAll crc bf keys).hashCount = bf.hashCount
    ∧ (bloomAddAll crc bf keys).bits.length = bf.bits.length
    ∧ (bloomAddAll crc bf keys).count = bf.count + keys.length := by
  induction keys with
  | nil => intro bf; exact ⟨rfl, rfl, rfl, rfl⟩
  | cons q keys ih =>
    intro bf
    have step := bloomAdd_fields crc bf q
    have rest := ih (bloomAdd crc bf q)
    unfold bloomAddAll at rest ⊢
    rw [List.foldl_cons]
    refine ⟨?_, ?_, ?_, ?_⟩
    · rw [rest.1, step.1]
    · rw [rest.2.1, step.2.1]
    · rw [rest.2.2.1, step.2.2.1]
    · rw [rest.2.2.2, step.2.2.2]
      simp
      omega

theorem testBit_bloomAddAll_mono (crc : List Nat → Nat) (keys : List (List Nat)) :
    ∀ (bf : BloomFilter) (p : Nat), testBit bf.bits p = true →
    testBit (bloomAddAll crc bf keys).bits p = true := by
  induction keys with
  | nil => exact fun _ _ h => h
  | cons q keys ih =>
    intro bf p h
    unfold bloomAddAll
    rw [List.foldl_cons]
    exact ih _ p (testBit_foldl_mono h)

theorem bloomPositions_lt {crc : List Nat → Nat} {size k : Nat} (hs : 0 < size)
    {key : List Nat} : ∀ p ∈ bloomPositions crc size k key, p < size := by
  intro p hp
  unfold bloomPositions at hp
  obtain ⟨i, _, rfl⟩ := List.mem_map.mp hp
  exact Nat.mod_lt _ hs

theorem bloomAddAll_sets (crc : List Nat → Nat) {keys : List (List Nat)}
    {key : List Nat} (hmem : key ∈ keys) :
    ∀ bf : BloomFilter, 0 < bf.size → bf.size % 8 = 0 →
    bf.bits.length = bf.size / 8 →
    ∀ p ∈ bloomPositions crc bf.size bf.hashCount key,
      testBit (bloomAddAll crc bf keys).bits p = true := by
  induction keys with
  | nil => simp at hmem
  | cons q keys ih =>
    intro bf hs h8 hlen p hp
    have hdiv : ∀ r, r < bf.size → r / 8 < bf.bits.length := by
      intro r hr
      rw [hlen]
      exact Nat.div_lt_div_of_lt_of_dvd (Nat.dvd_of_mod_eq_zero h8) hr
    unfold bloomAddAll
    rw [List.foldl_cons]
    rcases List.mem_cons.mp hmem with rfl | hmem'
    · -- the key is inserted now; its bits survive the remaining insertions
      apply testBit_bloomAddAll_mono
      show testBit (bloomAdd crc bf key).bits p = true
      unfold bloomAdd
      exact testBit_foldl_self hp
        (fun r hr => hdiv r (bloomPositions_lt hs r hr))
    · -- the key is inserted later; field values are preserved by this step
      have step := bloomAdd_fields crc bf q
      refine ih hmem' (bloomAdd crc bf q) (by rw [step.1]; exact hs)
        (by rw [step.1]; exact h8) (by rw [step.2.2.1, step.1]; exact hlen) p ?_
      rw [step.1, step.2.1]
      exact hp

theorem deserialize_serialize {bf : BloomFilter} (h1 : bf.size < 2 ^ 64)
    (h2 : bf.hashCount < 2 ^ 64) (h3 : bf.count < 2 ^ 64) :
    deserializeBloom (serializeBloom bf) = some bf := by
  unfold deserializeBloom serializeBloom
  have l1 : (natToBE8 bf.size).length = 8 := rfl
  have l2 : (natToBE8 bf.hashCount).length = 8 := rfl
  have l3 : (natToBE8 bf.count).length = 8 := rfl
  have e8 : (natToBE8 bf.size ++ (natToBE8 bf.hashCount ++ (natToBE8 bf.count ++ bf.bits))).drop 8
      = natToBE8 bf.hashCount ++ (natToBE8 bf.count ++ bf.bits) := by
    rw [List.drop_append_of_le_length (by omega), List.drop_of_length_le (by omega),
      List.nil_append]
  have e16 : (natToBE8 bf.size ++ (natToBE8 bf.hashCount ++ (natToBE8 bf.count ++ bf.bits))).drop 16
      = natToBE8 bf.count ++ bf.bits := by
    rw [show (16 : Nat) = 8 + 8 from rfl, ← List.drop_drop, e8,
      List.drop_append_of_le_length (by omega), List.drop_of_length_le (by omega),
      List.nil_append]
  have e24 : (natToBE8 bf.size ++ (natToBE8 bf.hashCount ++ (natToBE8 bf.count ++ bf.bits))).drop 24
      = bf.bits := by
    rw [show (24 : Nat) = 16 + 8 from rfl, ← List.drop_drop, e16,
      List.drop_append_of_le_length (by omega), List.drop_of_length_le (by omega),
      List.nil_append]
  rw [List.append_assoc, List.append_assoc]
  rw [if_neg (by simp only [List.length_append, l1, l2, l3]; omega)]
  rw [e8, e16, e24]
  rw [List.take_append_of_le_length (by omega), List.take_of_length_le (by omega)]
  rw [List.take_append_of_le_length (by omega), List.take_of_length_le (by omega)]
  rw [List.take_append_of_le_length (by omega), List.take_of_length_le (by omega)]
  rw [beToNat8_natToBE8 h1, beToNat8_natToBE8 h2, beToNat8_natToBE8 h3]

/-- C4: for every bloom filter created with `NewBloomFilter` (bit count `m`,
a multiple of 8 and at least 1024, and hash count `k` — both derived from
`(n, p)` by float arithmetic abstracted here) and every key passed to `Add`
during a build, `MightContain` returns `true`, including when the filter is
serialized to the 24-byte-header format and deserialized (or mmap-loaded)
before the query: no false negatives for inserted keys. -/
theorem c4_bloom_no_false_negative (crc : List Nat → Nat) (m k : Nat)
    (hm : 0 < m) (hm8 : m % 8 = 0) (hm64 : m < 2 ^ 64) (hk64 : k < 2 ^ 64)
    (keys : List (List Nat)) (key : List Nat) (hmem : key ∈ keys)
    (hcnt : keys.length < 2 ^ 64) :
    mightContain crc (bloomAddAll crc (newBloomFilter m k) keys) key = true
    ∧ deserializeBloom (serializeBloom (bloomAddAll crc (newBloomFilter m k) keys)) =
        some (bloomAddAll crc (newBloomFilter m k) keys) := by
  have fields := bloomAddAll_fields crc keys (newBloomFilter m k)
  have hsize : (bloomAddAll crc (newBloomFilter m k) keys).size = m := fields.1
  have hhash : (bloomAddAll crc (newBloomFilter m k) keys).hashCount = k := fields.2.1
  have hcount : (bloomAddAll crc (newBloomFilter m k) keys).count = keys.length :=
    by rw [fields.2.2.2]; simp [newBloomFilter]
  constructor
  · unfold mightContain
    rw [List.all_eq_true]
    intro p hp
    rw [hsize, hhash] at hp
    exact bloomAddAll_sets crc hmem (newBloomFilter m k) hm hm8 (by simp [newBloomFilter]) p hp
  · exact deserialize_serialize (by rw [hsize]; exact hm64)
      (by rw [hhash]; exact hk64) (by rw [hcount]; exact hcnt)

/-- Witness for C4: a 1024-bit filter with 3 hashes, a stand-in hash
function, and a two-key build probed for the second key. -/
theorem c4_bloom_no_false_negative_witness :
    (0 < 1024 ∧ 1024 % 8 = 0 ∧ 1024 < 2 ^ 64 ∧ 3 < 2 ^ 64
      ∧ [51] ∈ [[49, 50], [51]] ∧ ([[49, 50], [51]] : List (List Nat)).length < 2 ^ 64)
    ∧ mightContain (fun l => l.foldl (fun a b => a * 31 + b) 7)
        (bloomAddAll (fun l => l.foldl (fun a b => a * 31 + b) 7)
          (newBloomFilter 1024 3) [[49, 50], [51]]) [51] = true :=
  ⟨by decide,
    (c4_bloom_no_false_negative (fun l => l.foldl (fun a b => a * 31 + b) 7) 1024 3
      (by decide) (by decide) (by decide) (by decide)
      [[49, 50], [51]] [51] (by decide) (by decide)).1⟩

/-! ### External sorter: chunk phase

Embeds `Sorter.Add` / `Sorter.flushChunk` (block_io.go): records accumulate
in a memory buffer; when the buffer reaches `chunkSize` it is sorted with
the `(key, offset)` comparator and spilled as one chunk.  `slices.SortFunc`
is modelled by `List.insertionSort recLE` (any sorting algorithm: the
output is a sorted permutation of the buffer).  `Finalize` flushes the tail
buffer as a final chunk.
-/

def sortChunk (l : List IndexRecord) : List IndexRecord := List.insertionSort recLE l

def sorterStep (chunkSize : Nat) (st : List (List IndexRecord) × List IndexRecord)
    (r : IndexRecord) : List (List IndexRecord) × List IndexRecord :=
  if chunkSize ≤ (st.2 ++ [r]).length then (st.1 ++ [sortChunk (st.2 ++ [r])], [])
  else (st.1, st.2 ++ [r])

/-- The spill chunks present after `Add`-ing every record and `Finalize`'s
tail flush. -/
def sorterChunks (chunkSize : Nat) (recs : List IndexRecord) : List (List IndexRecord) :=
  if (recs.foldl (sorterStep chunkSize) ([], [])).2.isEmpty
  then (recs.foldl (sorterStep chunkSize) ([], [])).1
  else (recs.foldl (sorterStep chunkSize) ([], [])).1 ++
    [sortChunk (recs.foldl (sorterStep chunkSize) ([], [])).2]

theorem sortChunk_perm (l : List IndexRecord) : List.Perm (sortChunk l) l :=
  List.perm_insertionSort recLE l

theorem sortChunk_sorted (l : List IndexRecord) : List.Sorted recLE (sortChunk l) :=
  List.sorted_insertionSort recLE l

theorem sorter_foldl_perm (cs : Nat) (recs : List IndexRecord) :
    ∀ st : List (List IndexRecord) × List IndexRecord,
    List.Perm
      ((recs.foldl (sorterStep cs) st).1.flatten ++ (recs.foldl (sorterStep cs) st).2)
      (st.1.flatten ++ (st.2 ++ recs)) := by
  induction recs with
  | nil => intro st; simp
  | cons r rs ih =>
    intro st
    rw [List.foldl_cons]
    refine (ih (sorterStep cs st r)).trans ?_
    unfold sorterStep
    split_ifs
    · -- flush: the sorted buffer joins the chunk list
      simp only [List.flatten_append, List.flatten_cons, List.flatten_nil, List.append_nil,
        List.nil_append]
      have h1 : List.Perm (st.1.flatten ++ sortChunk (st.2 ++ [r]) ++ rs)
          (st.1.flatten ++ ((st.2 ++ [r]) ++ rs)) := by
        rw [List.append_assoc]
        exact ((sortChunk_perm (st.2 ++ [r])).append_right rs).append_left st.1.flatten
      refine h1.trans ?_
      simp [List.append_assoc]
    · simp [List.append_assoc]

theorem sorter_foldl_sorted (cs : Nat) (recs : List IndexRecord) :
    ∀ st : List (List IndexRecord) × List IndexRecord,
    (∀ c ∈ st.1, List.Sorted recLE c) →
    ∀ c ∈ (recs.foldl (sorterStep cs) st).1, List.Sorted recLE c := by
  induction recs with
  | nil => exact fun st h => h
  | cons r rs ih =>
    intro st h
    rw [List.foldl_cons]
    refine ih (sorterStep cs st r) ?_
    unfold sorterStep
    split_ifs
    · intro c hc
      rcases List.mem_append.mp hc with hc | hc
      · exact h c hc
      · rw [List.mem_singleton.mp hc]
        exact sortChunk_sorted _
    · exact h

theorem sorterChunks_flatten_perm (cs : Nat) (recs : List IndexRecord) :
    List.Perm (sorterChunks cs recs).flatten recs := by
  unfold sorterChunks
  have h := sorter_foldl_perm cs recs ([], [])
  simp only [List.flatten_nil, List.nil_append] at h
  split_ifs with he
  · have hb : (recs.foldl (sorterStep cs) ([], [])).2 = [] := by
      simpa using he
    rw [hb, List.append_nil] at h
    exact h
  · rw [List.flatten_append, List.flatten_cons, List.flatten_nil, List.append_nil]
    refine List.Perm.trans ?_ h
    exact (sortChunk_perm _).append_left _

theorem sorterChunks_sorted (cs : Nat) (recs : List IndexRecord) :
    ∀ c ∈ sorterChunks cs recs, List.Sorted recLE c := by
  unfold sorterChunks
  have h := sorter_foldl_sorted cs recs ([], []) (by simp)
  split_ifs
  · exact h
  · intro c hc
    rcases List.mem_append.mp hc with hc | hc
    · exact h c hc
    · rw [List.mem_singleton.mp hc]
      exact sortChunk_sorted _


/-! ### External sorter: k-way merge

Embeds `Sorter.kWayMerge` (block_io.go): a binary min-heap over the chunk
readers keyed by `(record.key, record.offset)`; each step pops the minimum
and refills from its source chunk.  The heap pop is modelled by selecting
a nonempty chunk with minimal head (`minHeadIdx`); the loop becomes a
fuel-based recursion where the fuel — the total number of buffered
records — bounds the number of pops exactly.
-/

/-- One comparison step of the heap pop: prefer the current chunk head `x`
unless the best later head `r` is strictly smaller. -/
def minHeadStep (x : IndexRecord) : Option (Nat × IndexRecord) → Option (Nat × IndexRecord)
  | none => some (0, x)
  | some (j, r) => if recCmp x r ≠ .gt then some (0, x) else some (j + 1, r)

/-- Index and head record of a nonempty chunk whose head is minimal for
`recCmp` (the element a heap pop returns); `none` when all chunks are
drained. -/
def minHeadIdx : List (List IndexRecord) → Option (Nat × IndexRecord)
  | [] => none
  | [] :: rest => (minHeadIdx rest).map (fun p => (p.1 + 1, p.2))
  | (x :: _) :: rest => minHeadStep x (minHeadIdx rest)

theorem minHeadStep_none (x : IndexRecord) : minHeadStep x none = some (0, x) := rfl

theorem minHeadStep_some (x : IndexRecord) (j : Nat) (r : IndexRecord) :
    minHeadStep x (some (j, r)) =
      if recCmp x r ≠ .gt then some (0, x) else some (j + 1, r) := rfl

theorem minHeadIdx_none : ∀ {ls : List (List IndexRecord)}, minHeadIdx ls = none →
    ∀ l ∈ ls, l = []
  | [], _, l, hl => by simp at hl
  | [] :: rest, h, l, hl => by
    simp only [minHeadIdx, Option.map_eq_none'] at h
    rcases List.mem_cons.mp hl with rfl | hl
    · rfl
    · exact minHeadIdx_none h l hl
  | (x :: xs) :: rest, h, l, hl => by
    rw [minHeadIdx] at h
    cases h' : minHeadIdx rest with
    | none => rw [h', minHeadStep_none] at h; exact absurd h (by simp)
    | some p =>
      obtain ⟨j, s⟩ := p
      rw [h', minHeadStep_some] at h
      split_ifs at h

theorem minHeadIdx_get : ∀ {ls : List (List IndexRecord)} {i : Nat} {r : IndexRecord},
    minHeadIdx ls = some (i, r) → i < ls.length ∧ ∃ t, ls.getD i [] = r :: t
  | [], i, r, h => by simp [minHeadIdx] at h
  | [] :: rest, i, r, h => by
    rw [minHeadIdx] at h
    cases h' : minHeadIdx rest with
    | none => rw [h'] at h; exact absurd h (by simp)
    | some p =>
      obtain ⟨j, s⟩ := p
      rw [h'] at h
      simp only [Option.map_some', Option.some.injEq, Prod.mk.injEq] at h
      obtain ⟨hi, hr⟩ := h
      obtain ⟨hlt, t, hget⟩ := minHeadIdx_get h'
      subst hi hr
      refine ⟨by simpa using hlt, t, ?_⟩
      simpa [List.getD_cons_succ] using hget
  | (x :: xs) :: rest, i, r, h => by
    rw [minHeadIdx] at h
    cases h' : minHeadIdx rest with
    | none =>
      rw [h', minHeadStep_none] at h
      simp only [Option.some.injEq, Prod.mk.injEq] at h
      obtain ⟨hi, hr⟩ := h
      subst hi hr
      exact ⟨by simp, xs, rfl⟩
    | some p =>
      obtain ⟨j, s⟩ := p
      rw [h', minHeadStep_some] at h
      split_ifs at h
      · simp only [Option.some.injEq, Prod.mk.injEq] at h
        obtain ⟨hi, hr⟩ := h
        subst hi hr
        exact ⟨by simp, xs, rfl⟩
      · simp only [Option.some.injEq, Prod.mk.injEq] at h
        obtain ⟨hi, hr⟩ := h
        subst hr
        obtain ⟨hlt, t, hget⟩ := minHeadIdx_get h'
        subst hi
        refine ⟨by simpa using hlt, t, ?_⟩
        simpa [List.getD_cons_succ] using hget

theorem minHeadIdx_min : ∀ {ls : List (List IndexRecord)} {i : Nat} {r : IndexRecord},
    minHeadIdx ls = some (i, r) → ∀ l ∈ ls, ∀ x xs, l = x :: xs → recLE r x
  | [], i, r, h => by simp [minHeadIdx] at h
  | [] :: rest, i, r, h => by
    rw [minHeadIdx] at h
    cases h' : minHeadIdx rest with
    | none => rw [h'] at h; exact absurd h (by simp)
    | some p =>
      obtain ⟨j, s⟩ := p
      rw [h'] at h
      simp only [Option.map_some', Option.some.injEq, Prod.mk.injEq] at h
      obtain ⟨hi, hr⟩ := h
      subst hr
      intro l hl x xs hlx
      rcases List.mem_cons.mp hl with rfl | hl
      · simp at hlx
      · exact minHeadIdx_min h' l hl x xs hlx
  | (y :: ys) :: rest, i, r, h => by
    rw [minHeadIdx] at h
    cases h' : minHeadIdx rest with
    | none =>
      rw [h', minHeadStep_none] at h
      simp only [Option.some.injEq, Prod.mk.injEq] at h
      obtain ⟨hi, hr⟩ := h
      subst hr
      intro l hl x xs hlx
      rcases List.mem_cons.mp hl with rfl | hl
      · cases hlx
        exact recLE_refl _
      · have := minHeadIdx_none h' l hl
        rw [this] at hlx
        cases hlx
    | some p =>
      obtain ⟨j, s⟩ := p
      rw [h', minHeadStep_some] at h
      split_ifs at h with hcmp
      · simp only [Option.some.injEq, Prod.mk.injEq] at h
        obtain ⟨hi, hr⟩ := h
        subst hr
        intro l hl x xs hlx
        rcases List.mem_cons.mp hl with rfl | hl
        · cases hlx
          exact recLE_refl _
        · exact recLE_trans hcmp (minHeadIdx_min h' l hl x xs hlx)
      · simp only [Option.some.injEq, Prod.mk.injEq] at h
        obtain ⟨hi, hr⟩ := h
        subst hr
        intro l hl x xs hlx
        rcases List.mem_cons.mp hl with rfl | hl
        · cases hlx
          push_neg at hcmp
          unfold recLE
          rw [recCmp_gt_lt hcmp]
          simp
        · exact minHeadIdx_min h' l hl x xs hlx

def kWayMergeGo : Nat → List (List IndexRecord) → List IndexRecord
  | 0, _ => []
  | fuel + 1, ls =>
    match minHeadIdx ls with
    | none => []
    | some (i, r) => r :: kWayMergeGo fuel (ls.set i ((ls.getD i []).tail))

def kWayMerge (ls : List (List IndexRecord)) : List IndexRecord :=
  kWayMergeGo (ls.map List.length).sum ls

theorem kWayMergeGo_none {fuel : Nat} {ls : List (List IndexRecord)}
    (hm : minHeadIdx ls = none) : kWayMergeGo (fuel + 1) ls = [] := by
  rw [kWayMergeGo, hm]

theorem kWayMergeGo_some {fuel : Nat} {ls : List (List IndexRecord)} {i : Nat}
    {r : IndexRecord} (hm : minHeadIdx ls = some (i, r)) :
    kWayMergeGo (fuel + 1) ls = r :: kWayMergeGo fuel (ls.set i ((ls.getD i []).tail)) := by
  rw [kWayMergeGo, hm]

theorem getD_mem_of_lt : ∀ (ls : List (List IndexRecord)) (i : Nat), i < ls.length →
    ls.getD i [] ∈ ls
  | [], i, h => by simp at h
  | l :: rest, 0, _ => by simp
  | l :: rest, i + 1, h => by
    simp only [List.getD_cons_succ]
    exact List.mem_cons_of_mem _ (getD_mem_of_lt rest i (by simpa using h))

theorem sum_length_set : ∀ (ls : List (List IndexRecord)) (i : Nat)
    (r : IndexRecord) (t : List IndexRecord), ls.getD i [] = r :: t → i < ls.length →
    ((ls.set i t).map List.length).sum + 1 = (ls.map List.length).sum
  | [], i, r, t, _, hi => by simp at hi
  | l :: rest, 0, r, t, hget, _ => by
    simp only [List.getD_cons_zero] at hget
    subst hget
    simp only [List.set, List.map_cons, List.sum_cons, List.length_cons]
    omega
  | l :: rest, i + 1, r, t, hget, hi => by
    simp only [List.getD_cons_succ] at hget
    simp only [List.set, List.map_cons, List.sum_cons]
    have := sum_length_set rest i r t hget (by simpa using hi)
    omega

theorem flatten_set_perm : ∀ (ls : List (List IndexRecord)) (i : Nat)
    (r : IndexRecord) (t : List IndexRecord), ls.getD i [] = r :: t → i < ls.length →
    List.Perm ls.flatten (r :: (ls.set i t).flatten)
  | [], i, r, t, _, hi => by simp at hi
  | l :: rest, 0, r, t, hget, _ => by
    simp only [List.getD_cons_zero] at hget
    subst hget
    simp [List.flatten_cons]
  | l :: rest, i + 1, r, t, hget, hi => by
    simp only [List.getD_cons_succ] at hget
    have ih := flatten_set_perm rest i r t hget (by simpa using hi)
    simp only [List.set, List.flatten_cons]
    refine (ih.append_left l).trans ?_
    exact List.perm_middle

theorem kWayMergeGo_perm : ∀ (fuel : Nat) (ls : List (List IndexRecord)),
    (ls.map List.length).sum ≤ fuel → List.Perm (kWayMergeGo fuel ls) ls.flatten := by
  intro fuel
  induction fuel with
  | zero =>
    intro ls h
    have hlen : ls.flatten.length = 0 := by
      rw [List.length_flatten]; omega
    rw [List.length_eq_zero] at hlen
    rw [hlen, kWayMergeGo]
  | succ fuel ih =>
    intro ls h
    cases hm : minHeadIdx ls with
    | none =>
      rw [kWayMergeGo_none hm]
      have : ∀ l ∈ ls, l = [] := minHeadIdx_none hm
      have : ls.flatten = [] := by
        rw [List.flatten_eq_nil_iff]
        exact this
      rw [this]
    | some p =>
      obtain ⟨i, r⟩ := p
      obtain ⟨hi, t, hget⟩ := minHeadIdx_get hm
      rw [kWayMergeGo_some hm, hget]
      simp only [List.tail_cons]
      have hsum := sum_length_set ls i r t hget hi
      have hperm := ih (ls.set i t) (by omega)
      exact (hperm.cons r).trans (flatten_set_perm ls i r t hget hi).symm

theorem kWayMergeGo_sorted : ∀ (fuel : Nat) (ls : List (List IndexRecord)),
    (ls.map List.length).sum ≤ fuel → (∀ l ∈ ls, List.Sorted recLE l) →
    List.Sorted recLE (kWayMergeGo fuel ls) := by
  intro fuel
  induction fuel with
  | zero =>
    intro ls _ _
    rw [kWayMergeGo]
    exact List.sorted_nil
  | succ fuel ih =>
    intro ls h hs
    cases hm : minHeadIdx ls with
    | none =>
      rw [kWayMergeGo_none hm]
      exact List.sorted_nil
    | some p =>
      obtain ⟨i, r⟩ := p
      obtain ⟨hi, t, hget⟩ := minHeadIdx_get hm
      rw [kWayMergeGo_some hm, hget]
      simp only [List.tail_cons]
      have hsum := sum_length_set ls i r t hget hi
      have hsort : ∀ l ∈ ls.set i t, List.Sorted recLE l := by
        intro l hl
        rcases List.mem_or_eq_of_mem_set hl with hl | rfl
        · exact hs l hl
        · have : List.Sorted recLE (r :: l) := by
            rw [← hget]
            exact hs _ (getD_mem_of_lt ls i hi)
          exact this.of_cons
      rw [List.sorted_cons]
      constructor
      · intro b hb
        have hbmem : b ∈ (ls.set i t).flatten :=
          (kWayMergeGo_perm fuel (ls.set i t) (by omega)).mem_iff.mp hb
        obtain ⟨l, hl, hbl⟩ := List.mem_flatten.mp hbmem
        rcases List.mem_or_eq_of_mem_set hl with hl | rfl
        · obtain ⟨y, ys, rfl⟩ := List.exists_cons_of_ne_nil
            (show l ≠ [] from fun hz => by rw [hz] at hbl; simp at hbl)
          have hry : recLE r y := minHeadIdx_min hm _ hl y ys rfl
          rcases List.mem_cons.mp hbl with rfl | hbl
          · exact hry
          · exact recLE_trans hry (List.rel_of_sorted_cons (hs _ hl) b hbl)
        · have : List.Sorted recLE (r :: l) := by
            rw [← hget]
            exact hs _ (getD_mem_of_lt ls i hi)
          exact List.rel_of_sorted_cons this b hbl
      · exact ih (ls.set i t) (by omega) hsort

theorem kWayMerge_perm (ls : List (List IndexRecord)) :
    List.Perm (kWayMerge ls) ls.flatten :=
  kWayMergeGo_perm _ ls (le_refl _)

theorem kWayMerge_sorted (ls : List (List IndexRecord))
    (hs : ∀ l ∈ ls, List.Sorted recLE l) : List.Sorted recLE (kWayMerge ls) :=
  kWayMergeGo_sorted _ ls (le_refl _) hs

/-! ### Block writer

Embeds `BlockWriter.WriteRecord` / `FlushBlock` / `Close` (block_io.go):
records buffer until the running raw size (`len(key) + 16` per record, i.e.
80 for the fixed 64-byte keys) reaches `BlockTargetSize = 64 KiB`, then the
buffer is flushed as one block; `Close` flushes the remainder.  Each
directory entry records `start_key`, the trailing-zero-trimmed key of the
block's first record.
-/

def blockTargetSize : Nat := 64 * 1024

def blocksGo (target : Nat) : List IndexRecord → List IndexRecord → Nat →
    List (List IndexRecord)
  | [], buf, _ => if buf.isEmpty then [] else [buf]
  | r :: rest, buf, size =>
    if target ≤ size + (r.key.length + 16) then
      (buf ++ [r]) :: blocksGo target rest [] 0
    else blocksGo target rest (buf ++ [r]) (size + (r.key.length + 16))

def writerBlocks (recs : List IndexRecord) : List (List IndexRecord) :=
  blocksGo blockTargetSize recs [] 0

/-- `BlockMeta.StartKey` as derived by `FlushBlock` from the buffer head. -/
def blockStartKey : List IndexRecord → List Nat
  | [] => []
  | r :: _ => trimZeros r.key

theorem blocksGo_flatten (target : Nat) : ∀ (recs buf : List IndexRecord) (size : Nat),
    (blocksGo target recs buf size).flatten = buf ++ recs := by
  intro recs
  induction recs with
  | nil =>
    intro buf size
    rw [blocksGo]
    split_ifs with h
    · simp_all
    · simp
  | cons r rest ih =>
    intro buf size
    rw [blocksGo]
    split_ifs with h
    · rw [List.flatten_cons, ih [] 0, List.nil_append]
      simp
    · rw [ih]
      simp

theorem blocksGo_ne_nil (target : Nat) : ∀ (recs buf : List IndexRecord) (size : Nat),
    ∀ b ∈ blocksGo target recs buf size, b ≠ [] := by
  intro recs
  induction recs with
  | nil =>
    intro buf size b hb
    rw [blocksGo] at hb
    split_ifs at hb with h
    · simp at hb
    · rw [List.mem_singleton.mp hb]
      simpa using h
  | cons r rest ih =>
    intro buf size b hb
    rw [blocksGo] at hb
    split_ifs at hb with h
    · rcases List.mem_cons.mp hb with rfl | hb
      · simp
      · exact ih [] 0 b hb
    · exact ih _ _ b hb

/-- The directory start keys of consecutive blocks of a globally sorted
record sequence are non-decreasing in the byte-wise string order. -/
theorem sorted_blocks_startKeys : ∀ (bs : List (List IndexRecord)),
    (∀ b ∈ bs, b ≠ []) → List.Sorted recLE bs.flatten →
    List.Sorted keyLE (bs.map blockStartKey) := by
  intro bs
  induction bs with
  | nil => intro _ _; simp [List.Sorted]
  | cons b rest ih =>
    intro hnn hs
    rw [List.flatten_cons] at hs
    have hcross := (List.pairwise_append.mp hs).2.2
    have hsrest : List.Sorted recLE rest.flatten := (List.pairwise_append.mp hs).2.1
    rw [List.map_cons, List.sorted_cons]
    constructor
    · intro sk hsk
      obtain ⟨c, hc, rfl⟩ := List.mem_map.mp hsk
      obtain ⟨hb0, bt, hbeq⟩ := List.exists_cons_of_ne_nil (hnn b (by simp))
      obtain ⟨hc0, ct, hceq⟩ := List.exists_cons_of_ne_nil (hnn c (by simp [hc]))
      have hrc : recLE hb0 hc0 := by
        refine hcross hb0 (by rw [hbeq]; simp) hc0 ?_
        rw [List.mem_flatten]
        exact ⟨c, hc, by rw [hceq]; simp⟩
      rw [hbeq, hceq]
      unfold blockStartKey
      exact trimZeros_mono (recLE_keyLE hrc)
    · exact ih (fun x hx => hnn x (List.mem_cons_of_mem _ hx)) hsrest

/-! ### C1: the sorter-to-cidx pipeline -/

/-- The record sequence of the `.cidx` written by `Sorter.Finalize`:
spill chunks k-way merged through the block writer. -/
def cidxRecords (chunkSize : Nat) (recs : List IndexRecord) : List IndexRecord :=
  kWayMerge (sorterChunks chunkSize recs)

/-- C1: for every finite sequence of index records fed to a `Sorter` (in any
order, with any chunk size, i.e. any memory limit, producing one or more
spill chunks), the record sequence `Finalize` writes — the blocks of the
`.cidx` in directory order, records within each block in order — is a
permutation of the input (no record lost or duplicated) sorted ascending by
`(64-byte key bytes, offset)`; consequently directory entries appear in
non-decreasing `start_key` order. -/
theorem c1_sorter_cidx_sorted_noloss (chunkSize : Nat) (recs : List IndexRecord) :
    List.Perm (cidxRecords chunkSize recs) recs
    ∧ List.Sorted recLE (cidxRecords chunkSize recs)
    ∧ (writerBlocks (cidxRecords chunkSize recs)).flatten = cidxRecords chunkSize recs
    ∧ List.Sorted keyLE ((writerBlocks (cidxRecords chunkSize recs)).map blockStartKey) := by
  have hperm : List.Perm (cidxRecords chunkSize recs) recs :=
    (kWayMerge_perm _).trans (sorterChunks_flatten_perm chunkSize recs)
  have hsorted : List.Sorted recLE (cidxRecords chunkSize recs) :=
    kWayMerge_sorted _ (sorterChunks_sorted chunkSize recs)
  have hflat : (writerBlocks (cidxRecords chunkSize recs)).flatten =
      cidxRecords chunkSize recs := by
    unfold writerBlocks
    rw [blocksGo_flatten, List.nil_append]
  refine ⟨hperm, hsorted, hflat, ?_⟩
  refine sorted_blocks_startKeys _ (blocksGo_ne_nil _ _ _ _) ?_
  rw [hflat]
  exact hsorted

/-! ### Disk index search

Embeds `DiskIndex.findStartBlock` and `diskIterator.Next` (block_io.go;
`QueryEngine.findStartBlock` / `compareRecordKey` are the same code in the
second package tree).  A `.cidx` is modelled as its decoded blocks; each
directory entry's `StartKey` is the trimmed key of the block's first record,
exactly as `FlushBlock` wrote it.  The binary-search loop halves
`right - left + 1` every iteration, so `length + 1` iterations always
suffice; the fuel only discharges termination and is never exhausted.
-/

/-- The `for left <= right` loop of `findStartBlock`: the last directory
index whose `StartKey <=` the search key, `-1` if none. -/
def findLastGo (sks : List (List Nat)) (key : List Nat) :
    Nat → Nat → Int → Int → Int
  | 0, _, _, result => result
  | fuel + 1, left, right, result =>
    if (left : Int) ≤ right then
      let mid := (left + right.toNat) / 2
      if bytesCmp (sks.getD mid []) key ≠ .gt then
        findLastGo sks key fuel (mid + 1) right (mid : Int)
      else
        findLastGo sks key fuel left ((mid : Int) - 1) result
    else result

/-- The back-up loop: `for result > 0 && blocks[result-1].StartKey == key`. -/
def backUp (sks : List (List Nat)) (key : List Nat) : Nat → Nat
  | 0 => 0
  | n + 1 => if sks.getD n [] = key then backUp sks key n else n + 1

/-- `DiskIndex.findStartBlock`. -/
def findStartBlock (sks : List (List Nat)) (key : List Nat) : Int :=
  let r := findLastGo sks key (sks.length + 1) 0 ((sks.length : Int) - 1) (-1)
  if r = -1 then -1
  else if sks.getD r.toNat [] = key then (backUp sks key r.toNat : Int)
  else r

/-- The record loop of `diskIterator.Next` inside one block: skip records
whose trimmed key is below the search key, yield equal ones, and stop the
whole iteration at the first greater one (`compareRecordKey` trims trailing
zero bytes before comparing).  Returns the yielded records and whether the
iteration terminated. -/
def iterRecords (key : List Nat) : List IndexRecord → List IndexRecord × Bool
  | [] => ([], false)
  | r :: rest =>
    match bytesCmp (trimZeros r.key) key with
    | .lt => iterRecords key rest
    | .eq =>
      ((iterRecords key rest).1.cons r, (iterRecords key rest).2)
    | .gt => ([], true)

/-- The block loop of `diskIterator.Next`: stop before a block whose
directory `StartKey` exceeds the search key, otherwise drain it. -/
def iterFrom (key : List Nat) : List (List IndexRecord) → List IndexRecord
  | [] => []
  | blk :: rest =>
    if bytesCmp (blockStartKey blk) key = .gt then []
    else if (iterRecords key blk).2 then (iterRecords key blk).1
    else (iterRecords key blk).1 ++ iterFrom key rest

/-- `DiskIndex.Search` followed by draining the iterator (the bloom
pre-check is omitted: by C4 it never rejects an inserted key). -/
def searchRecords (blocks : List (List IndexRecord)) (key : List Nat) :
    List IndexRecord :=
  let s := findStartBlock (blocks.map blockStartKey) key
  if s < 0 then [] else iterFrom key (blocks.drop s.toNat)

def c2recA : IndexRecord := { key := toKey64 [97], offset := 0, line := 2 }

def c2recK1 : IndexRecord := { key := toKey64 [98], offset := 10, line := 3 }

def c2recK2 : IndexRecord := { key := toKey64 [98], offset := 20, line := 4 }

/-- A two-block `.cidx` layout in which a run of equal keys crosses the
block boundary: the first block ends with key `"b"` while its `start_key`
is `"a"`, and the second block starts with key `"b"`. -/
def c2blocks : List (List IndexRecord) := [[c2recA, c2recK1], [c2recK2]]

/-- C2 evaluation: the index is globally sorted by `(key, offset)` and the
key `"b"` occurs (trimmed) in it, yet searching for `"b"` starts at the
second block — the binary search lands on the last `start_key ≤ "b"` and
the back-up loop stops because the previous block's `start_key` is `"a"`,
not `"b"` — so the iterator yields only the second block's record and
misses the matching record at the tail of the first block. -/
theorem c2_search_misses_record_eval :
    List.Sorted recLE c2blocks.flatten
    ∧ trimZeros c2recK1.key = [98]
    ∧ c2recK1 ∈ c2blocks.flatten
    ∧ searchRecords c2blocks [98] = [c2recK2]
    ∧ c2recK1 ∉ searchRecords c2blocks [98] := by
  decide

/-! ### CSV scanner

Embeds `SIMDParser.Scan` / `processChunk` / `parseLineSimd` / 
`countChunkLines` (pkg/csvquery/parser/simd_parser.go).  The bitmap
word-walk visits exactly the quote and newline bytes of the chunk in
increasing position order, toggling `inQuote` at quotes and cutting records
at unquoted newlines, so it is embedded as a linear scan carrying the loop
state `(pos, lineStart, currentLine, inQuote)`; the current line's bytes
`chunk[lineStart:pos]` are carried directly.  Emission: trim one trailing
CR, skip empty lines (which do not advance the line counter), and emit the
unterminated tail row when the chunk does not end inside a quote.
-/

structure Emitted where
  offset : Nat
  line : Int
  row : List Nat
deriving DecidableEq

/-- Trim a single optional trailing CR. -/
def trimCR (l : List Nat) : List Nat :=
  if l.getLast? = some 13 then l.dropLast else l

def chunkScan : List Nat → Nat → Nat → List Nat → Bool → Int → List Emitted
  | [], _pos, lineStart, cur, inQ, curLine =>
    if cur ≠ [] ∧ inQ = false then
      if trimCR cur ≠ [] then [{ offset := lineStart, line := curLine, row := trimCR cur }]
      else []
    else []
  | b :: rest, pos, lineStart, cur, inQ, curLine =>
    if b = 34 then chunkScan rest (pos + 1) lineStart (cur ++ [b]) (!inQ) curLine
    else if b = 10 ∧ inQ = false then
      if trimCR cur ≠ [] then
        { offset := lineStart, line := curLine, row := trimCR cur }
          :: chunkScan rest (pos + 1) (pos + 1) [] inQ (curLine + 1)
      else chunkScan rest (pos + 1) (pos + 1) [] inQ curLine
    else chunkScan rest (pos + 1) lineStart (cur ++ [b]) inQ curLine

/-- `bytes.IndexByte`. -/
def indexOfByte (b : Nat) : List Nat → Option Nat
  | [] => none
  | x :: rest => if x = b then some 0 else (indexOfByte b rest).map (· + 1)

/-- The pre-pass `countChunkLines`: unquoted newlines in the chunk, plus one
when the chunk is nonempty, does not end with a newline, and does not end
inside a quote. -/
def countLinesGo : List Nat → Bool → Nat
  | [], _ => 0
  | b :: rest, q =>
    if b = 34 then countLinesGo rest (!q)
    else if b = 10 ∧ q = false then 1 + countLinesGo rest q
    else countLinesGo rest q

def finalQuoteState : List Nat → Bool → Bool
  | [], q => q
  | b :: rest, q => finalQuoteState rest (if b = 34 then !q else q)

def countChunkLines (chunk : List Nat) : Nat :=
  countLinesGo chunk false +
    (if chunk ≠ [] ∧ chunk.getLast? ≠ some 10 ∧ finalQuoteState chunk false = false
     then 1 else 0)

/-- `SIMDParser.Scan` with one worker: the chunk boundaries are
`[headerEnd, fileEnd]` and the pre-pass gives the single chunk the starting
line number 2 (line 1 is the header). -/
def scanRowsW1 (data : List Nat) : List Emitted :=
  match indexOfByte 10 data with
  | none => []
  | some p =>
    if data.length ≤ p + 1 then []
    else chunkScan (data.drop (p + 1)) (p + 1) (p + 1) [] false 2

/-- S6: id,note then a quoted field containing a newline, then a second row. -/
def csvS6 : List Nat :=
  [105, 100, 44, 110, 111, 116, 101, 10,
   49, 44, 34, 104, 101, 108, 108, 111, 10,
   119, 111, 114, 108, 100, 34, 10,
   50, 44, 34, 111, 107, 34, 10]

/-- C5 counterexample: on the S6 CSV the scanner emits two data rows, but
the line numbers passed to the handler are 2 and 3 — not 2 and 4 as the
claim states: `processChunk` advances the line counter once per emitted
record, and the pre-pass counts unquoted newlines, so quoted newlines never
advance the numbering. -/
theorem c5_lines_counterexample :
    (scanRowsW1 csvS6).map (fun e => e.line) = [2, 3]
    ∧ (scanRowsW1 csvS6).map (fun e => e.line) ≠ [2, 4] := by
  decide

/-- C5 (amended): on the S6 CSV the scanner emits exactly two data rows, at
offsets 8 and 24, with line numbers 2 and 3 (rows are numbered
consecutively from 2; the physical line inside the quoted field does not
get a number), and the pre-pass counts 2 rows for the chunk. -/
theorem c5_lines_amended :
    (scanRowsW1 csvS6).map (fun e => (e.offset, e.line)) = [(8, 2), (24, 3)]
    ∧ countChunkLines (csvS6.drop 8) = 2 := by
  decide

/-! ### CountAll

Embeds `QueryEngine.runCountAllViaCsv` and `tryCountFromIndex` (the query
engine): the fallback counts newline bytes over the mapped CSV (the
parallel per-chunk counts sum to the plain count), adds one when the file
does not end with a newline, and subtracts one for the header; the index
path sums `recordCount` over the directory blocks.
-/

def countNewlines : List Nat → Nat
  | [] => 0
  | b :: rest => (if b = 10 then 1 else 0) + countNewlines rest

def endsWithNL : List Nat → Bool
  | [] => false
  | [b] => b == 10
  | _ :: rest => endsWithNL rest

def countAllRaw (data : List Nat) : Int :=
  if endsWithNL data then (countNewlines data : Int) else (countNewlines data : Int) + 1

def countAllViaCsv (data : List Nat) : Int :=
  if data = [] then 0
  else if 0 < countAllRaw data then countAllRaw data - 1 else countAllRaw data

/-- Sum of the directory `recordCount` fields (`tryCountFromIndex`). -/
def indexRecordCountSum (blocks : List (List IndexRecord)) : Int :=
  ((blocks.map List.length).sum : Int)

/-- Every newline of the span lies outside quotes (scanned with the given
initial quote state) — the hypothesis of C6. -/
def noQuotedNL : List Nat → Bool → Bool
  | [], _ => true
  | b :: rest, q =>
    if b = 34 then noQuotedNL rest (!q)
    else if b = 10 then !q && noQuotedNL rest q
    else noQuotedNL rest q

/-- Every record the scan of the span closes — and the trailing one, if
any — is nonempty after CR-trimming, and the span does not end inside an
open quote: exactly the rows the scanner would emit. -/
def cleanRows : List Nat → Bool → List Nat → Bool
  | [], inQ, cur => cur.isEmpty || (!inQ && !(trimCR cur).isEmpty)
  | b :: rest, inQ, cur =>
    if b = 34 then cleanRows rest (!inQ) (cur ++ [b])
    else if b = 10 ∧ inQ = false then !(trimCR cur).isEmpty && cleanRows rest inQ []
    else cleanRows rest inQ (cur ++ [b])

theorem endsWithNL_cons (b : Nat) (rest : List Nat) (h : rest ≠ []) :
    endsWithNL (b :: rest) = endsWithNL rest := by
  cases rest with
  | nil => exact absurd rfl h
  | cons x xs => rfl

theorem endsWithNL_single (b : Nat) : endsWithNL [b] = (b == 10) := rfl

/-- Row count of one chunk scan, under the C6 hypotheses: one row per
unquoted newline, plus a trailing row when the span does not end with a
newline. -/
theorem chunkScan_length_eq : ∀ (body : List Nat) (pos lineStart : Nat) (cur : List Nat)
    (inQ : Bool) (curLine : Int),
    noQuotedNL body inQ = true → cleanRows body inQ cur = true →
    (chunkScan body pos lineStart cur inQ curLine).length =
      countNewlines body +
        (if (body = [] ∧ cur = []) ∨ endsWithNL body = true then 0 else 1)
  | [], pos, lineStart, cur, inQ, curLine, hq, hc => by
    rcases eq_or_ne cur [] with rfl | hcur
    · simp [chunkScan, countNewlines, endsWithNL]
    · simp only [cleanRows, Bool.or_eq_true, Bool.and_eq_true, Bool.not_eq_true',
        List.isEmpty_iff] at hc
      rcases hc with hc | ⟨hinQ, htrim⟩
      · exact absurd hc hcur
      · rw [chunkScan, if_pos ⟨hcur, hinQ⟩, if_pos (by simpa using htrim)]
        simp [countNewlines, endsWithNL, hcur]
  | b :: rest, pos, lineStart, cur, inQ, curLine, hq, hc => by
    by_cases hb34 : b = 34
    · -- a quote byte: toggles the quote state, extends the current row
      rw [noQuotedNL, if_pos hb34] at hq
      rw [cleanRows, if_pos hb34] at hc
      rw [chunkScan, if_pos hb34]
      rw [chunkScan_length_eq rest (pos + 1) lineStart (cur ++ [b]) (!inQ) curLine hq hc]
      have hb10 : b ≠ 10 := by omega
      rcases eq_or_ne rest [] with rfl | hrest
      · simp [countNewlines, endsWithNL, hb10]
      · rw [endsWithNL_cons b rest hrest]
        rcases hewl : endsWithNL rest <;> simp [hewl, countNewlines, hb10, hrest]
    · by_cases hb10 : b = 10 ∧ inQ = false
      · -- an unquoted newline: a record boundary, the row must be nonempty
        have hinQ : inQ = false := hb10.2
        subst hinQ
        rw [noQuotedNL, if_neg hb34, if_pos hb10.1] at hq
        simp only [Bool.not_false, Bool.true_and] at hq
        rw [cleanRows, if_neg hb34, if_pos hb10] at hc
        simp only [Bool.and_eq_true, Bool.not_eq_true'] at hc
        obtain ⟨htrim, hc⟩ := hc
        have htrim' : trimCR cur ≠ [] := by
          intro hz
          rw [hz] at htrim
          simp at htrim
        rw [chunkScan, if_neg hb34, if_pos hb10, if_pos htrim', List.length_cons]
        rw [chunkScan_length_eq rest (pos + 1) (pos + 1) [] false (curLine + 1) hq hc]
        rcases eq_or_ne rest [] with rfl | hrest
        · simp [countNewlines, endsWithNL, hb10.1]
        · rw [endsWithNL_cons b rest hrest]
          rcases hewl : endsWithNL rest <;>
            simp [hewl, countNewlines, hb10.1, hrest] <;> omega
      · by_cases hb10' : b = 10
        · -- a quoted newline: excluded by the no-quoted-newline hypothesis
          have hinQ : inQ = true := by
            by_cases hb : inQ = false
            · exact absurd ⟨hb10', hb⟩ hb10
            · simpa using hb
          subst hinQ
          rw [noQuotedNL, if_neg hb34, if_pos hb10'] at hq
          simp at hq
        · -- an ordinary byte: extends the current row
          rw [noQuotedNL, if_neg hb34, if_neg hb10'] at hq
          rw [cleanRows, if_neg hb34, if_neg hb10] at hc
          rw [chunkScan, if_neg hb34, if_neg hb10]
          rw [chunkScan_length_eq rest (pos + 1) lineStart (cur ++ [b]) inQ curLine hq hc]
          rcases eq_or_ne rest [] with rfl | hrest
          · simp [countNewlines, endsWithNL, hb10']
          · rw [endsWithNL_cons b rest hrest]
            rcases hewl : endsWithNL rest <;> simp [hewl, countNewlines, hb10', hrest]


/-! ### Field extraction

Embeds the field loops of `SIMDParser.parseLineSimd` (scanner side) and
`extractCols` (query executor side).  Both toggle quote state, split at
unquoted separators, and strip one pair of enclosing double quotes from
each materialized field; `parseLineSimd` checks its column bound before
each byte and only then appends the final field, while `extractCols`
checks it after appending a field and always appends the tail field.
The `Raw` variants are identical except that fields are kept verbatim;
they only serve to state what the stripping step does.
-/

/-- `if len(val) >= 2 && val[0] == '"' && val[len(val)-1] == '"' then
val[1 : len(val)-1]`. -/
def stripQuotes (v : List Nat) : List Nat :=
  if 2 ≤ v.length ∧ v.head? = some 34 ∧ v.getLast? = some 34 then (v.drop 1).dropLast
  else v

def parseFieldsGo (sep maxCol : Nat) :
    List Nat → Bool → List Nat → List (List Nat) → List (List Nat)
  | [], _inQ, cur, cols =>
    if cols.length ≤ maxCol then cols ++ [stripQuotes cur] else cols
  | b :: rest, inQ, cur, cols =>
    if maxCol < cols.length then cols
    else if b = 34 then parseFieldsGo sep maxCol rest (!inQ) (cur ++ [b]) cols
    else if b = sep ∧ inQ = false then
      parseFieldsGo sep maxCol rest inQ [] (cols ++ [stripQuotes cur])
    else parseFieldsGo sep maxCol rest inQ (cur ++ [b]) cols

def parseFieldsRawGo (sep maxCol : Nat) :
    List Nat → Bool → List Nat → List (List Nat) → List (List Nat)
  | [], _inQ, cur, cols =>
    if cols.length ≤ maxCol then cols ++ [cur] else cols
  | b :: rest, inQ, cur, cols =>
    if maxCol < cols.length then cols
    else if b = 34 then parseFieldsRawGo sep maxCol rest (!inQ) (cur ++ [b]) cols
    else if b = sep ∧ inQ = false then
      parseFieldsRawGo sep maxCol rest inQ [] (cols ++ [cur])
    else parseFieldsRawGo sep maxCol rest inQ (cur ++ [b]) cols

/-- The materialized column slices of one row (`parseLineSimd`). -/
def parseFields (sep maxCol : Nat) (line : List Nat) : List (List Nat) :=
  parseFieldsGo sep maxCol line false [] []

def parseFieldsRaw (sep maxCol : Nat) (line : List Nat) : List (List Nat) :=
  parseFieldsRawGo sep maxCol line false [] []

def extractColsGo (sep maxCol : Nat) :
    List Nat → Bool → List Nat → List (List Nat) → List (List Nat)
  | [], _inQ, cur, cols => cols ++ [stripQuotes cur]
  | b :: rest, inQ, cur, cols =>
    if b = sep ∧ (if b = 34 then !inQ else inQ) = false then
      if maxCol < (cols ++ [stripQuotes cur]).length then cols ++ [stripQuotes cur]
      else extractColsGo sep maxCol rest (if b = 34 then !inQ else inQ) []
        (cols ++ [stripQuotes cur])
    else extractColsGo sep maxCol rest (if b = 34 then !inQ else inQ) (cur ++ [b]) cols

def extractColsRawGo (sep maxCol : Nat) :
    List Nat → Bool → List Nat → List (List Nat) → List (List Nat)
  | [], _inQ, cur, cols => cols ++ [cur]
  | b :: rest, inQ, cur, cols =>
    if b = sep ∧ (if b = 34 then !inQ else inQ) = false then
      if maxCol < (cols ++ [cur]).length then cols ++ [cur]
      else extractColsRawGo sep maxCol rest (if b = 34 then !inQ else inQ) []
        (cols ++ [cur])
    else extractColsRawGo sep maxCol rest (if b = 34 then !inQ else inQ) (cur ++ [b]) cols

/-- The row-materialization columns of the query executor (`extractCols`). -/
def extractCols (sep maxCol : Nat) (line : List Nat) : List (List Nat) :=
  extractColsGo sep maxCol line false [] []

def extractColsRaw (sep maxCol : Nat) (line : List Nat) : List (List Nat) :=
  extractColsRawGo sep maxCol line false [] []

theorem parseFieldsGo_map (sep maxCol : Nat) :
    ∀ (bs : List Nat) (inQ : Bool) (cur : List Nat) (cols : List (List Nat)),
    parseFieldsGo sep maxCol bs inQ cur (cols.map stripQuotes) =
      (parseFieldsRawGo sep maxCol bs inQ cur cols).map stripQuotes
  | [], inQ, cur, cols => by
    rw [parseFieldsGo, parseFieldsRawGo, List.length_map]
    split_ifs
    · rw [List.map_append]
      rfl
    · rfl
  | b :: rest, inQ, cur, cols => by
    rw [parseFieldsGo, parseFieldsRawGo, List.length_map]
    split_ifs
    · rfl
    · exact parseFieldsGo_map sep maxCol rest (!inQ) (cur ++ [b]) cols
    · rw [show (cols.map stripQuotes ++ [stripQuotes cur]) = (cols ++ [cur]).map stripQuotes
        from by rw [List.map_append]; rfl]
      exact parseFieldsGo_map sep maxCol rest inQ [] (cols ++ [cur])
    · exact parseFieldsGo_map sep maxCol rest inQ (cur ++ [b]) cols

theorem extractColsGo_map (sep maxCol : Nat) :
    ∀ (bs : List Nat) (inQ : Bool) (cur : List Nat) (cols : List (List Nat)),
    extractColsGo sep maxCol bs inQ cur (cols.map stripQuotes) =
      (extractColsRawGo sep maxCol bs inQ cur cols).map stripQuotes
  | [], inQ, cur, cols => by
    rw [extractColsGo, extractColsRawGo, List.map_append]
    rfl
  | b :: rest, inQ, cur, cols => by
    have hmap : List.map stripQuotes cols ++ [stripQuotes cur] =
        List.map stripQuotes (cols ++ [cur]) := by
      rw [List.map_append]
      rfl
    rw [extractColsGo, extractColsRawGo, hmap, List.length_map]
    split_ifs <;>
      first
        | rfl
        | exact extractColsGo_map sep maxCol rest _ [] (cols ++ [cur])
        | exact extractColsGo_map sep maxCol rest _ (cur ++ [b]) cols

/-- C10: both the scanner's field materialization and the executor's row
materialization strip exactly one pair of enclosing double quotes from each
raw field (so index keys, condition values and group values all exclude the
quotes), and a field whose raw bytes start and end with a double quote with
length at least 2 becomes the bytes strictly between the two quotes — in
particular the two-byte field of two quotes becomes the empty string. -/
theorem c10_quote_stripping (sep maxCol : Nat) (line : List Nat) (v : List Nat)
    (hv2 : 2 ≤ v.length) (hvh : v.head? = some 34) (hvl : v.getLast? = some 34) :
    extractCols sep maxCol line = (extractColsRaw sep maxCol line).map stripQuotes
    ∧ parseFields sep maxCol line = (parseFieldsRaw sep maxCol line).map stripQuotes
    ∧ stripQuotes v = (v.drop 1).dropLast
    ∧ stripQuotes [34, 34] = [] := by
  refine ⟨?_, ?_, ?_, by decide⟩
  · unfold extractCols extractColsRaw
    rw [show ([] : List (List Nat)) = ([] : List (List Nat)).map stripQuotes from rfl]
    exact extractColsGo_map sep maxCol line false [] []
  · unfold parseFields parseFieldsRaw
    rw [show ([] : List (List Nat)) = ([] : List (List Nat)).map stripQuotes from rfl]
    exact parseFieldsGo_map sep maxCol line false [] []
  · unfold stripQuotes
    rw [if_pos ⟨hv2, hvh, hvl⟩]

/-- Witness for C10 at a concrete quoted line and field. -/
theorem c10_quote_stripping_witness :
    (2 ≤ ([34, 97, 34] : List Nat).length ∧ ([34, 97, 34] : List Nat).head? = some 34
      ∧ ([34, 97, 34] : List Nat).getLast? = some 34)
    ∧ (extractCols 44 2 [34, 97, 34, 44, 98] =
        (extractColsRaw 44 2 [34, 97, 34, 44, 98]).map stripQuotes
      ∧ parseFields 44 2 [34, 97, 34, 44, 98] =
        (parseFieldsRaw 44 2 [34, 97, 34, 44, 98]).map stripQuotes
      ∧ stripQuotes [34, 97, 34] = (([34, 97, 34] : List Nat).drop 1).dropLast
      ∧ stripQuotes [34, 34] = []) :=
  ⟨by decide, c10_quote_stripping 44 2 [34, 97, 34, 44, 98] [34, 97, 34]
    (by decide) (by decide) (by decide)⟩

/-! ### Index build pipeline

Embeds record construction in `parseLineSimd` key building and the
`IndexManager` scan handler: a single-column index key is the column's
bytes; a composite key is the canonical bracketed form
`["v1","v2",...]`; the 64-byte record key is the (truncating, zero-padding)
`copy` into a `[64]byte`.
-/

/-- Composite key bytes written into the scratch buffer by
`parseLineSimd`. -/
def bracketKey (vals : List (List Nat)) : List Nat :=
  [91] ++ List.intercalate [44] (vals.map (fun v => [34] ++ v ++ [34])) ++ [93]

def buildKey (cols : List (List Nat)) : List Nat → List Nat
  | [i] => cols.getD i []
  | is => bracketKey (is.map (fun i => cols.getD i []))

/-- maxCol over the index definition (`processChunk`; the Go code starts
from -1, which never matters for the nonempty definitions used here). -/
def maxColOf (indices : List Nat) : Nat := indices.foldl Nat.max 0

def buildRecord (sep : Nat) (indices : List Nat) (e : Emitted) : IndexRecord :=
  { key := toKey64 (buildKey (parseFields sep (maxColOf indices) e.row) indices)
    offset := (e.offset : Int)
    line := e.line }

def buildRecords (sep : Nat) (indices : List Nat) (data : List Nat) : List IndexRecord :=
  (scanRowsW1 data).map (buildRecord sep indices)

/-- The blocks of the `.cidx` built over one index definition. -/
def cidxBlocks (sep : Nat) (indices : List Nat) (chunkSize : Nat) (data : List Nat) :
    List (List IndexRecord) :=
  writerBlocks (kWayMerge (sorterChunks chunkSize (buildRecords sep indices data)))

/-! ### C6: CountAll equivalence -/

theorem indexOfByte_count : ∀ {data : List Nat} {p : Nat}, indexOfByte 10 data = some p →
    countNewlines data = 1 + countNewlines (data.drop (p + 1))
  | [], p, h => by simp [indexOfByte] at h
  | x :: rest, p, h => by
    rw [indexOfByte] at h
    split_ifs at h with hx
    · simp only [Option.some.injEq] at h
      subst h
      subst hx
      simp [countNewlines]
    · cases hp : indexOfByte 10 rest with
      | none => rw [hp] at h; simp at h
      | some q =>
        rw [hp] at h
        simp only [Option.map_some', Option.some.injEq] at h
        subst h
        rw [countNewlines, indexOfByte_count hp]
        simp [hx]

theorem endsWithNL_drop : ∀ (l : List Nat) (n : Nat), l.drop n ≠ [] →
    endsWithNL l = endsWithNL (l.drop n)
  | l, 0, _ => rfl
  | [], n + 1, h => by simp at h
  | x :: rest, n + 1, h => by
    rw [List.drop_succ_cons] at h ⊢
    rw [endsWithNL_cons x rest (by intro hz; rw [hz] at h; simp at h)]
    exact endsWithNL_drop rest n h

/-- C6 (amended): for every CSV with a header line, no quoted newlines, and
no blank data rows (every record, including a trailing unterminated one, is
nonempty after CR-trimming and the body does not end inside an open quote),
the sum of `recordCount` over the directory of a built index equals the
CountAll fallback count (newline bytes, plus one without a trailing
newline, minus one for the header).  Without the no-blank-rows condition
the equality fails (see the counterexample): the scanner skips empty lines
while the newline count does not. -/
theorem c6_count_equiv_amended (data : List Nat) (p : Nat) (sep : Nat)
    (indices : List Nat) (chunkSize : Nat)
    (hh : indexOfByte 10 data = some p)
    (hbody : data.drop (p + 1) ≠ [])
    (hq : noQuotedNL (data.drop (p + 1)) false = true)
    (hclean : cleanRows (data.drop (p + 1)) false [] = true) :
    indexRecordCountSum (cidxBlocks sep indices chunkSize data) = countAllViaCsv data := by
  have hlen : p + 1 < data.length := by
    by_contra hle
    push_neg at hle
    exact hbody (List.drop_eq_nil_of_le hle)
  -- the scanner's row count
  have hscan : scanRowsW1 data =
      chunkScan (data.drop (p + 1)) (p + 1) (p + 1) [] false 2 := by
    simp only [scanRowsW1, hh]
    rw [if_neg (by omega)]
  have hrows : (scanRowsW1 data).length =
      countNewlines (data.drop (p + 1)) +
        (if endsWithNL (data.drop (p + 1)) = true then 0 else 1) := by
    rw [hscan, chunkScan_length_eq _ _ _ _ _ _ hq hclean]
    have : ¬((data.drop (p + 1) = [] ∧ ([] : List Nat) = []) ∨
        endsWithNL (data.drop (p + 1)) = true) ↔
        ¬(endsWithNL (data.drop (p + 1)) = true) := by
      constructor
      · intro hn he
        exact hn (Or.inr he)
      · intro hn hor
        rcases hor with ⟨hz, _⟩ | he
        · exact hbody hz
        · exact hn he
    rcases hewl : endsWithNL (data.drop (p + 1)) with _ | _
    · simp [hbody]
    · simp
  -- the directory sum equals the record count
  have hidx : indexRecordCountSum (cidxBlocks sep indices chunkSize data)
      = ((scanRowsW1 data).length : Int) := by
    unfold indexRecordCountSum cidxBlocks
    have h1 : (writerBlocks (kWayMerge (sorterChunks chunkSize
        (buildRecords sep indices data)))).flatten
        = kWayMerge (sorterChunks chunkSize (buildRecords sep indices data)) := by
      unfold writerBlocks
      rw [blocksGo_flatten, List.nil_append]
    have h2 := congrArg List.length h1
    rw [List.length_flatten] at h2
    rw [h2, (kWayMerge_perm _).length_eq, (sorterChunks_flatten_perm _ _).length_eq]
    unfold buildRecords
    rw [List.length_map]
  -- the fallback count
  have hdata : data ≠ [] := by
    intro hz
    rw [hz] at hlen
    simp at hlen
  have hcnt : countNewlines data = 1 + countNewlines (data.drop (p + 1)) :=
    indexOfByte_count hh
  have hewl : endsWithNL data = endsWithNL (data.drop (p + 1)) :=
    endsWithNL_drop data (p + 1) hbody
  rw [hidx, hrows, ← hewl]
  unfold countAllViaCsv countAllRaw
  rw [if_neg hdata, hcnt]
  rcases hb : endsWithNL data with _ | _
  · rw [if_neg Bool.false_ne_true, if_neg Bool.false_ne_true, if_pos (by push_cast; omega)]
    push_cast
    omega
  · rw [if_pos rfl, if_pos rfl, if_pos (by push_cast; omega)]
    push_cast
    omega

/-- The CSV `a`, `1`, an empty line, `2` — a blank data row. -/
def csvBlank : List Nat := [97, 10, 49, 10, 10, 50, 10]

/-- C6 counterexample: the blank-line CSV has no quoted newlines, yet the
index built over its only column holds 2 records while the CountAll
fallback reports 3 — the claim as stated (quantified over all CSVs without
quoted newlines) is false. -/
theorem c6_blank_line_counterexample :
    noQuotedNL (csvBlank.drop 2) false = true
    ∧ indexRecordCountSum (cidxBlocks 44 [0] 1000 csvBlank) = 2
    ∧ countAllViaCsv csvBlank = 3
    ∧ indexRecordCountSum (cidxBlocks 44 [0] 1000 csvBlank) ≠ countAllViaCsv csvBlank := by
  decide

/-- The spec sample CSV S1: header `id,name,dept` then rows
`1,Alice,Eng` / `2,Bob,Sales` / `3,Carol,Eng` / `4,Dave,Eng`. -/
def csvS1 : List Nat :=
  [105, 100, 44, 110, 97, 109, 101, 44, 100, 101, 112, 116, 10,
   49, 44, 65, 108, 105, 99, 101, 44, 69, 110, 103, 10,
   50, 44, 66, 111, 98, 44, 83, 97, 108, 101, 115, 10,
   51, 44, 67, 97, 114, 111, 108, 44, 69, 110, 103, 10,
   52, 44, 68, 97, 118, 101, 44, 69, 110, 103, 10]

/-- Witness for C6 (amended) on the S1 sample CSV with a single-column
index on `dept` (column 2). -/
theorem c6_count_equiv_witness :
    (indexOfByte 10 csvS1 = some 12
      ∧ csvS1.drop 13 ≠ []
      ∧ noQuotedNL (csvS1.drop 13) false = true
      ∧ cleanRows (csvS1.drop 13) false [] = true)
    ∧ indexRecordCountSum (cidxBlocks 44 [2] 1000 csvS1) = countAllViaCsv csvS1 :=
  ⟨by decide, c6_count_equiv_amended csvS1 12 44 [2] 1000
    (by decide) (by decide) (by decide) (by decide)⟩

/-! ### C8: composite index search key

Embeds `QueryEngine.findBestIndex`: condition columns are sorted
alphabetically (`sort.Strings`), prefixes are probed longest first against
the existing index files, and the composite search key is the bracketed
quoted values in sorted-column order.
-/

def bDept : List Nat := [100, 101, 112, 116]

def bName : List Nat := [110, 97, 109, 101]

def bEng : List Nat := [69, 110, 103]

def bCarol : List Nat := [67, 97, 114, 111, 108]

/-- The conditions of query S2, `where = {"dept":"Eng","name":"Carol"}`. -/
def condsS2 : List (List Nat × List Nat) := [(bDept, bEng), (bName, bCarol)]

def lookupCond : List (List Nat × List Nat) → List Nat → List Nat
  | [], _ => []
  | (c, v) :: rest, col => if c = col then v else lookupCond rest col

/-- `strings.Join(currentCols, "_")` — the probed index name. -/
def underscoreJoin (cols : List (List Nat)) : List Nat := List.intercalate [95] cols

/-- The search key `findBestIndex` builds for a prefix of the sorted
condition columns: the bare value for a single column, the bracketed
quoted form (identical to the builder's composite key) otherwise. -/
def searchKeyOf (conds : List (List Nat × List Nat)) : List (List Nat) → List Nat
  | [c] => lookupCond conds c
  | cs => bracketKey (cs.map (lookupCond conds))

/-- The probe loop `for i := len(cols); i >= 1; i--`: try each prefix of
the sorted columns, longest first, against the existing index names. -/
def tryPrefixes (conds : List (List Nat × List Nat)) (cols : List (List Nat))
    (avail : List (List Nat)) : Nat → Option (List Nat × List Nat)
  | 0 => none
  | i + 1 =>
    if underscoreJoin (cols.take (i + 1)) ∈ avail then
      some (underscoreJoin (cols.take (i + 1)), searchKeyOf conds (cols.take (i + 1)))
    else tryPrefixes conds cols avail i

/-- `findBestIndex` restricted to what it returns: (index name, search
key), given the set of index names that exist on disk. -/
def findBestIndexKey (conds : List (List Nat × List Nat)) (avail : List (List Nat)) :
    Option (List Nat × List Nat) :=
  tryPrefixes conds (List.insertionSort keyLE (conds.map Prod.fst)) avail
    (conds.map Prod.fst).length

/-- Name of the composite index built from `[["dept","name"]]`. -/
def bDeptName : List Nat := [100, 101, 112, 116, 95, 110, 97, 109, 101]

/-- The bytes of the composite key `["Eng","Carol"]`. -/
def bEngCarol : List Nat :=
  [91, 34, 69, 110, 103, 34, 44, 34, 67, 97, 114, 111, 108, 34, 93]

/-- The bytes of the key `["Carol","Eng"]` claimed by the spec. -/
def bCarolEng : List Nat :=
  [91, 34, 67, 97, 114, 111, 108, 34, 44, 34, 69, 110, 103, 34, 93]

/-- C8 counterexample: for S2 the probe finds the `dept_name` index with
search key `["Eng","Carol"]` — the values follow the alphabetical order of
the column NAMES (dept before name), so the spec's claimed key
`["Carol","Eng"]` (values alphabetized) is not the probed key. -/
theorem c8_searchkey_counterexample :
    findBestIndexKey condsS2 [bDeptName] = some (bDeptName, bEngCarol)
    ∧ bEngCarol ≠ bCarolEng
    ∧ (findBestIndexKey condsS2 [bDeptName]).map Prod.snd ≠ some bCarolEng := by
  decide

/-- C8 (amended): the S2 query probes the composite index with the search
key `["Eng","Carol"]` (condition values in alphabetical order of their
column names), and searching the index built over columns (dept, name) of
the S1 CSV for that key yields exactly 1 record. -/
theorem c8_composite_search_amended :
    (findBestIndexKey condsS2 [bDeptName]).map Prod.snd = some bEngCarol
    ∧ (searchRecords (cidxBlocks 44 [2, 1] 1000 csvS1) bEngCarol).length = 1 := by
  decide

/-! ### C7: strategy choice

Embeds the dispatch sequence of `QueryEngine.Run`: the validity checks,
then the CountAll shortcut, then the overrides check, then
`findBestIndex` with the FullScan fallback.  The order matters: the
CountAll branch is taken BEFORE the overrides are consulted (and
`runCountAll` itself first tries to count from an index directory).
-/

inductive Strategy
  | countAll
  | fullScan
  | indexScan
  | groupIndexScan
  deriving DecidableEq

/-- The branch structure of `QueryEngine.Run`, in source order; `none`
models returning a validity error before any strategy runs. -/
def chooseStrategy (csvPathSet hasWhere groupBySet countOnly
    overridesNonEmpty indexFound : Bool) : Option Strategy :=
  if !csvPathSet then none
  else if !hasWhere && !groupBySet && !countOnly then none
  else if countOnly && !hasWhere && !groupBySet then some Strategy.countAll
  else if overridesNonEmpty then some Strategy.fullScan
  else if !indexFound then some Strategy.fullScan
  else if hasWhere then some Strategy.indexScan
  else some Strategy.groupIndexScan

/-- C7 counterexample: a `count_only` query with no where and no group_by
takes the CountAll shortcut even when the override map is non-empty — the
overrides check at part_006 line 479 comes after the CountAll return at
line 476, so the executed strategy is not FullScan. -/
theorem c7_overrides_counterexample :
    chooseStrategy true false false true true true = some Strategy.countAll
    ∧ chooseStrategy true false false true true true ≠ some Strategy.fullScan := by
  decide

/-- C7 (amended): for every VALID query that does not take the CountAll
shortcut (i.e. unless count_only is set with no where and no group_by),
a non-empty override map forces the FullScan strategy regardless of which
indexes exist. -/
theorem c7_overrides_force_fullscan_amended
    (csvPathSet hasWhere groupBySet countOnly indexFound : Bool)
    (hvalid : csvPathSet = true)
    (hquery : hasWhere = true ∨ groupBySet = true ∨ countOnly = true)
    (hnoShortcut : ¬(countOnly = true ∧ hasWhere = false ∧ groupBySet = false)) :
    chooseStrategy csvPathSet hasWhere groupBySet countOnly true indexFound
      = some Strategy.fullScan := by
  subst hvalid
  revert hquery hnoShortcut
  cases hasWhere <;> cases groupBySet <;> cases countOnly <;> cases indexFound <;> decide

theorem c7_overrides_force_fullscan_witness :
    chooseStrategy true true false false true true = some Strategy.fullScan :=
  c7_overrides_force_fullscan_amended true true false false true rfl
    (Or.inl rfl) (by decide)

/-! ### C9: overrides sidecar error handling

Embeds `LoadUpdates` (filter.go 165–188) and the construction path of
`NewQueryEngine` (part_006 452–463).  `LoadUpdates` returns an error for
an existing sidecar with malformed JSON, but `NewQueryEngine` drops that
error (`if um, err := LoadUpdates(...); err == nil` — no else branch) and
proceeds with a nil override manager; `cmd/csvquery/main.go` line 119
likewise leaves the error unhandled.
-/

/-- `LoadUpdates`: missing sidecar or empty content is benign (empty
override map); an existing file whose JSON fails to parse is an error.
`parsed` is the result of `json.Unmarshal` on the file's rows. -/
def loadUpdates (fileExists contentEmpty : Bool)
    (parsed : Option (List (List Nat × List Nat))) :
    Except Unit (List (List Nat × List Nat)) :=
  if fileExists then
    if contentEmpty then Except.ok []
    else
      match parsed with
      | some rows => Except.ok rows
      | none => Except.error ()
  else Except.ok []

/-- `NewQueryEngine`: the `LoadUpdates` error is discarded — on failure
the engine is still constructed, with no overrides attached. -/
def engineUpdates (fileExists contentEmpty : Bool)
    (parsed : Option (List (List Nat × List Nat))) :
    Option (List (List Nat × List Nat)) :=
  match loadUpdates fileExists contentEmpty parsed with
  | Except.ok rows => some rows
  | Except.error _ => none

/-- Whether a run through such an engine sees any override. -/
def runUsesOverrides (u : Option (List (List Nat × List Nat))) : Bool :=
  match u with
  | some rows => !rows.isEmpty
  | none => false

/-- C9: a missing sidecar is benign as claimed, and `LoadUpdates` does
error on malformed JSON — but `NewQueryEngine` swallows that error: the
engine is constructed with no overrides and the query runs with the
overrides silently ignored, contradicting the claim that it fails. -/
theorem c9_malformed_updates_eval :
    loadUpdates false true none = Except.ok []
    ∧ loadUpdates true false none = Except.error ()
    ∧ engineUpdates true false none = none
    ∧ runUsesOverrides (engineUpdates true false none) = false :=
  ⟨rfl, rfl, rfl, rfl⟩

end CsvQuery
